import Mathlib

set_option maxHeartbeats 1000000

/-!
Shallow embedding of `couchdb/design.py` (couchdb-python): design-document
definition objects, their source normalization, and the `sync_many`
synchronization algorithm, together with the `ViewDefinition.__call__`
view-invocation wrapper.

Python dictionaries are modelled as insertion-ordered association lists
(`List (String × _)`) with dict-style operations `aget`/`aset`/`adel`;
dictionary equality (which ignores insertion order) is modelled by the
executable `dictEq`.  Optional document sections (`views`, `filters`,
`language`) are `Option`-valued, distinguishing an absent key from a present
empty mapping exactly as Python dictionaries do.  Text is handled through
`String.data` (`List Char`); line splitting is modelled for LF-separated
source text, and the Python whitespace classes are modelled by their ASCII
members, which are the ones occurring in source code.
-/

/-- The ASCII members of the Python default whitespace class, as used by
`str.rstrip()`, `str.lstrip()` and `str.isspace()`
(space, tab, newline, carriage return, vertical tab, form feed). -/
def isPyWs (c : Char) : Bool :=
  c = ' ' || c = '\t' || c = '\n' || c = '\r' || c = '\x0b' || c = '\x0c'

/-- The whitespace characters considered by `textwrap.dedent`
(its regexes use the class holding exactly space and tab). -/
def isDedentWs (c : Char) : Bool :=
  c = ' ' || c = '\t'

/-- Python text.split on a single newline separator, as textwrap.dedent does:
keeps empty pieces, including a trailing one. -/
def splitNLAux : List Char → List Char → List String
  | [], acc => [String.mk acc.reverse]
  | c :: rest, acc =>
    if c = '\n' then String.mk acc.reverse :: splitNLAux rest []
    else splitNLAux rest (c :: acc)

def splitNL (s : String) : List String :=
  splitNLAux s.data []

def joinNLData : List String → List Char
  | [] => []
  | [l] => l.data
  | l :: rest => l.data ++ '\n' :: joinNLData rest

/-- Joining lines with a newline separator. -/
def joinNL (ls : List String) : String :=
  String.mk (joinNLData ls)

/-- Python str.splitlines for LF-separated text: like splitting on the newline,
but an empty string gives no lines and a trailing newline adds no final
empty line. -/
def pySplitlines (s : String) : List String :=
  if s = "" then []
  else
    let parts := splitNL s
    if parts.getLast? = some "" then parts.dropLast else parts

/-- Python line.isspace: non-empty and made of whitespace only. -/
def pyIsSpace (l : String) : Bool :=
  !(decide (l = "")) && l.data.all isPyWs

/-- Python line.lstrip on the character list. -/
def pyLstripData (l : List Char) : List Char :=
  l.dropWhile isPyWs

/-- Whether the line starts with an at-sign. -/
def beginsWithAt : List Char → Bool
  | '@' :: _ => true
  | _ => false

/-- The line loop of `_strip_decorators`: while still at the beginning,
a non-blank line starting (after lstrip) with `@` is dropped; the first
non-blank non-decorator line ends the beginning. -/
def stripDecoratorsLines : Bool → List String → List String
  | _, [] => []
  | beginning, line :: rest =>
    if beginning && !(pyIsSpace line) then
      if beginsWithAt (pyLstripData line.data) then
        stripDecoratorsLines beginning rest
      else
        line :: stripDecoratorsLines false rest
    else
      line :: stripDecoratorsLines beginning rest

/-- The helper _strip_decorators from couchdb/design.py. -/
def stripDecorators (code : String) : String :=
  joinNL (stripDecoratorsLines true (pySplitlines code))

/-- Python s.rstrip: remove all trailing whitespace. -/
def pyRstrip (s : String) : String :=
  String.mk ((s.data.reverse.dropWhile isPyWs).reverse)

/-- Python s.lstrip with a newline argument: remove all leading newline characters. -/
def lstripNL (s : String) : String :=
  String.mk (s.data.dropWhile (fun c => c = '\n'))

/-- The substitution of the textwrap.dedent whitespace-only-line regex:
a non-empty line made only of spaces and tabs is replaced by the empty line. -/
def blankWsOnly (l : String) : String :=
  if !(decide (l = "")) && l.data.all isDedentWs then "" else l

/-- The leading run of spaces and tabs of a line. -/
def lineIndent (l : String) : List Char :=
  l.data.takeWhile isDedentWs

/-- Whether the first list is a leading segment of the second (Python startswith). -/
def leadsWith : List Char → List Char → Bool
  | [], _ => true
  | _ :: _, [] => false
  | a :: as, b :: bs => decide (a = b) && leadsWith as bs

/-- Longest common leading segment of two character lists. -/
def lcpChars : List Char → List Char → List Char
  | a :: as, b :: bs => if a = b then a :: lcpChars as bs else []
  | _, _ => []

/-- One step of the CPython textwrap.dedent margin loop: keep the margin when
the indent extends it, shrink to the indent when the indent is shorter, and
otherwise cut the margin at the first mismatching position. -/
def marginStep (m ind : List Char) : List Char :=
  if leadsWith m ind then m
  else if leadsWith ind m then ind
  else lcpChars m ind

def dedentMargin (indents : List (List Char)) : List Char :=
  match indents with
  | [] => []
  | i :: is => is.foldl marginStep i

/-- Python textwrap.dedent, CPython algorithm: blank the whitespace-only
lines, fold the margin over the indents of the remaining non-empty lines,
then remove the margin from the start of every line carrying it. -/
def dedent (text : String) : String :=
  let lines := (splitNL text).map blankWsOnly
  let indents := (lines.filter (fun l => !(decide (l = "")))).map lineIndent
  let margin := dedentMargin indents
  joinNL (lines.map (fun l =>
    if leadsWith margin l.data then String.mk (l.data.drop margin.length) else l))

/-- A map/reduce/filter body supplied at construction: either a literal source
string, or an introspectable Python function carrying the literal source text
that `inspect.getsource` returns for it. -/
inductive FunArg where
  | str : String → FunArg
  | func : String → FunArg
deriving DecidableEq

/-- The normalization applied by `DesignDefinition.__init__` to one of the
`map_fun`/`reduce_fun`/`filter_fun` arguments: a function is turned into
`_strip_decorators(getsource(f).rstrip())`; then any truthy (non-empty)
string is replaced by `dedent(s.lstrip(newline))`. -/
def normalizeOpt : Option FunArg → Option String
  | none => none
  | some a =>
    let s := match a with
      | FunArg.str s => s
      | FunArg.func src => stripDecorators (pyRstrip src)
    if s = "" then some s else some (dedent (lstripNL s))

/-- The state of a `DesignDefinition` object after `__init__`. -/
structure DesignDefinition where
  design : String
  name : String
  map_fun : Option String
  reduce_fun : Option String
  filter_fun : Option String
  language : String
  options : Option (List (String × String))
deriving DecidableEq

/-- The constructor DesignDefinition.__init__: strips a leading design-document namespace
from `design`, asserts that a map or a filter body is present (an
`AssertionError` otherwise), and stores the normalized bodies. -/
def DesignDefinition.init (design name : String) (map_fun reduce_fun : Option FunArg)
    (language : String) (options : Option (List (String × String)))
    (filter_fun : Option FunArg) : Except String DesignDefinition :=
  let design := if leadsWith "_design/".data design.data
                then String.mk (design.data.drop 8) else design
  if map_fun = none ∧ filter_fun = none then
    Except.error "AssertionError"
  else
    Except.ok { design := design, name := name,
                map_fun := normalizeOpt map_fun,
                reduce_fun := normalizeOpt reduce_fun,
                filter_fun := normalizeOpt filter_fun,
                language := language, options := options }

/-- The function bundle written for a view: keys `map`, `reduce`, `options`,
each present exactly when the corresponding attribute is truthy. -/
structure Funcs where
  map : Option String
  reduce : Option String
  options : Option (List (String × String))
deriving DecidableEq

/-- A design document: `docId` models the `_id` field; `language`, `views`
and `filters` are `Option`-valued because the corresponding dictionary keys
may be absent. -/
structure DesignDoc where
  docId : String
  language : Option String
  views : Option (List (String × Funcs))
  filters : Option (List (String × String))
deriving DecidableEq

/-- First binding of a key in an association list (`d[k]` / `d.get(k)`). -/
def aget {α : Type} : List (String × α) → String → Option α
  | [], _ => none
  | p :: rest, k => if p.1 = k then some p.2 else aget rest k

/-- Dictionary assignment `d[k] = v`: replace the binding in place when the
key is present, append it otherwise. -/
def aset {α : Type} : List (String × α) → String → α → List (String × α)
  | [], k, v => [(k, v)]
  | p :: rest, k, v => if p.1 = k then (k, v) :: rest else p :: aset rest k v

/-- Dictionary deletion `del d[k]`. -/
def adel {α : Type} : List (String × α) → String → List (String × α)
  | [], _ => []
  | p :: rest, k => if p.1 = k then adel rest k else p :: adel rest k

def akeys {α : Type} (m : List (String × α)) : List String :=
  m.map Prod.fst

/-- Python truthiness of an optional string: present and non-empty. -/
def truthy : Option String → Bool
  | none => false
  | some s => !(decide (s = ""))

/-- Python truthiness of an optional options mapping: present and non-empty. -/
def otruthy : Option (List (String × String)) → Bool
  | none => false
  | some l => !l.isEmpty

def strEq (a b : String) : Bool := decide (a = b)

def obeq {α : Type} (beq : α → α → Bool) : Option α → Option α → Bool
  | none, none => true
  | some a, some b => beq a b
  | _, _ => false

/-- Python dictionary equality (order-insensitive): every key of either side
is bound to equal values on both sides. -/
def dictEq {α : Type} (beq : α → α → Bool) (a b : List (String × α)) : Bool :=
  (akeys a ++ akeys b).all (fun k => obeq beq (aget a k) (aget b k))

/-- Equality of an optional dictionary section: an absent key is distinct
from a present empty mapping, as for Python dictionaries. -/
def ovEq {α : Type} (beq : α → α → Bool) :
    Option (List (String × α)) → Option (List (String × α)) → Bool
  | none, none => true
  | some a, some b => dictEq beq a b
  | _, _ => false

def optsEq : Option (List (String × String)) → Option (List (String × String)) → Bool :=
  ovEq strEq

def funcsBEq (f g : Funcs) : Bool :=
  obeq strEq f.map g.map && obeq strEq f.reduce g.reduce && optsEq f.options g.options

/-- Python dictionary equality of two design documents (the `doc != orig_doc`
check of `sync_many`). -/
def docBEq (a b : DesignDoc) : Bool :=
  strEq a.docId b.docId && obeq strEq a.language b.language &&
    ovEq funcsBEq a.views b.views && ovEq strEq a.filters b.filters

/-- The function bundle built for one definition in the `sync_many` loop. -/
def mkFuncs (v : DesignDefinition) : Funcs :=
  { map := if truthy v.map_fun then v.map_fun else none,
    reduce := if truthy v.reduce_fun then v.reduce_fun else none,
    options := if otruthy v.options then v.options else none }

/-- The per-group mutable state of the `sync_many` loop. -/
structure LoopState where
  doc : DesignDoc
  missing_views : List String
  missing_filters : List String
  languages : List String

/-- Python set insertion languages.add, modelled on a duplicate-free
insertion-ordered list. -/
def insLang (l : List String) (x : String) : List String :=
  if x ∈ l then l else l ++ [x]

/-- One iteration of the `for view in views` loop of `sync_many`: a truthy
filter body goes to the `filters` section, otherwise the function bundle goes
to the `views` section; the touched name leaves the removal candidates and
the language of the definition joins the accumulated set. -/
def syncStep (st : LoopState) (v : DesignDefinition) : LoopState :=
  let funcs := mkFuncs v
  if truthy v.filter_fun then
    { st with
      doc := { st.doc with
               filters := some (aset (st.doc.filters.getD []) v.name (v.filter_fun.getD "")) },
      missing_filters := st.missing_filters.erase v.name,
      languages := insLang st.languages v.language }
  else
    { st with
      doc := { st.doc with
               views := some (aset (st.doc.views.getD []) v.name funcs) },
      missing_views := st.missing_views.erase v.name,
      languages := insLang st.languages v.language }

/-- The loop state before the loop of a group: the fetched document together
with the names currently present in its `views` and `filters` sections. -/
def initState (doc : DesignDoc) : LoopState :=
  { doc := doc,
    missing_views := akeys (doc.views.getD []),
    missing_filters := akeys (doc.filters.getD []),
    languages := [] }

/-- The `remove_missing` branch: delete every still-missing name from the
corresponding section. -/
def applyRemove (doc : DesignDoc) (mv mf : List String) : DesignDoc :=
  { doc with
    views := match doc.views with
      | none => none
      | some m => some (mv.foldl (fun acc n => adel acc n) m),
    filters := match doc.filters with
      | none => none
      | some m => some (mf.foldl (fun acc n => adel acc n) m) }

/-- The accumulated language set of one design-document group after the loop
and the `remove_missing`/`elif` branch: when removal was not requested, at
least one removal candidate remains and the document has a `language` field,
the stored language joins the set. -/
def finalLanguages (doc0 : DesignDoc) (g : List DesignDefinition) (rm : Bool) : List String :=
  let st := g.foldl syncStep (initState doc0)
  if rm then st.languages
  else if (!st.missing_views.isEmpty || !st.missing_filters.isEmpty) && st.doc.language.isSome then
    insLang st.languages (st.doc.language.getD "")
  else st.languages

def conflictMsg : String :=
  "ValueError: found different language views in one design document"

/-- One read-modify-write cycle of `sync_many` for one group: run the loop,
apply removal when requested, fail with the conflict error when more than one
language accumulated, and set the single resolved language.  Indexing the
empty language set models the `IndexError` Python would raise there. -/
def processGroup (doc0 : DesignDoc) (g : List DesignDefinition) (rm : Bool) :
    Except String DesignDoc :=
  let st := g.foldl syncStep (initState doc0)
  let doc := if rm then applyRemove st.doc st.missing_views st.missing_filters else st.doc
  let langs := finalLanguages doc0 g rm
  if 1 < langs.length then Except.error conflictMsg
  else
    match langs with
    | [] => Except.error "IndexError"
    | l :: _ => Except.ok { doc with language := some l }

/-- Python itertools.groupby keyed on the `design` attribute: maximal contiguous
runs of definitions with equal design-document names. -/
def groupRuns : List DesignDefinition → List (List DesignDefinition)
  | [] => []
  | v :: rest =>
    match groupRuns rest with
    | (w :: g) :: gs =>
      if v.design = w.design then (v :: w :: g) :: gs else [v] :: (w :: g) :: gs
    | gs => [v] :: gs

def groupDesign : List DesignDefinition → String
  | [] => ""
  | v :: _ => v.design

/-- The database handle, modelled as a mapping from document ids to stored
design documents. -/
abbrev Db := List (String × DesignDoc)

/-- The bare default document, holding only the id, passed to db.get. -/
def skeleton (design : String) : DesignDoc :=
  { docId := "_design/" ++ design, language := none, views := none, filters := none }

/-- Fetching the design document from the handle, defaulting to the skeleton. -/
def fetchDoc (db : Db) (design : String) : DesignDoc :=
  (aget db ("_design/" ++ design)).getD (skeleton design)

/-- The bulk write db.update: stores every submitted document under
its id, later submissions overwriting earlier ones. -/
def dbUpdate (db : Db) (ds : List DesignDoc) : Db :=
  ds.foldl (fun acc d => aset acc d.docId d) db

/-- The group loop of `sync_many`: each group is fetched from the database
state as of the start of the call, processed, and queued exactly when the
result differs (as a dictionary) from the deep copy taken at fetch time.
An error in any group aborts the whole call before any write. -/
def syncGroups (db : Db) (rm : Bool) : List (List DesignDefinition) → Except String (List DesignDoc)
  | [] => Except.ok []
  | g :: gs =>
    let doc0 := fetchDoc db (groupDesign g)
    match processGroup doc0 g rm with
    | Except.error e => Except.error e
    | Except.ok doc =>
      match syncGroups db rm gs with
      | Except.error e => Except.error e
      | Except.ok rest =>
        Except.ok ((if docBEq doc doc0 then [] else [doc]) ++ rest)

/-- The static method DesignDefinition.sync_many: group the
definitions into contiguous runs per design name, process each group, and
submit every queued document in one bulk update.  The optional callback only
observes queued documents and is not modelled. -/
def syncMany (db : Db) (views : List DesignDefinition) (rm : Bool) :
    Except String (List DesignDoc × Db) :=
  match syncGroups db rm (groupRuns views) with
  | Except.error e => Except.error e
  | Except.ok docs => Except.ok (docs, dbUpdate db docs)

/-- The callable state of a `ViewDefinition`: its path components, stored
default query options and result wrapper.  `V` is the type of query-option
values (arbitrary Python objects at the call site). -/
structure ViewDefinition (V : Type) where
  design : String
  name : String
  defaults : List (String × V)
  wrapper : V

/-- Copying the base mapping and then updating it in order, as Python dict.update does. -/
def dictUpdate {α : Type} (base upd : List (String × α)) : List (String × α) :=
  upd.foldl (fun m p => aset m p.1 p.2) base

/-- The callable ViewDefinition.__call__: merge the stored defaults with
the call-time options (call-time wins), inject the stored wrapper under the
`wrapper` key only when absent, and delegate to `db.view` with the joined
path; the result models the pair passed to the database handle. -/
def viewCall {V : Type} (vd : ViewDefinition V) (options : List (String × V)) :
    String × List (String × V) :=
  let merged := dictUpdate vd.defaults options
  let merged := if (aget merged "wrapper").isSome then merged
                else aset merged "wrapper" vd.wrapper
  (vd.design ++ "/" ++ vd.name, merged)

/-! Auxiliary notions used to characterize the synchronization loop. -/

/-- A definition classified into the `views` section (no truthy filter body). -/
def isViewDef (v : DesignDefinition) : Bool :=
  !truthy v.filter_fun

/-- The last definition of the list that writes view name `k`. -/
def lastView (k : String) : List DesignDefinition → Option DesignDefinition
  | [] => none
  | v :: g =>
    match lastView k g with
    | some w => some w
    | none => if isViewDef v && decide (v.name = k) then some v else none

/-- The last definition of the list that writes filter name `k`. -/
def lastFilter (k : String) : List DesignDefinition → Option DesignDefinition
  | [] => none
  | v :: g =>
    match lastFilter k g with
    | some w => some w
    | none => if truthy v.filter_fun && decide (v.name = k) then some v else none

/-- The language set accumulated from the definitions alone. -/
def defsLangs (g : List DesignDefinition) : List String :=
  g.foldl (fun l v => insLang l v.language) []

/-- Value lookup through an optional dictionary section. -/
def vget {α : Type} (o : Option (List (String × α))) (k : String) : Option α :=
  match o with
  | none => none
  | some m => aget m k

def touchedV (g : List DesignDefinition) (k : String) : Bool :=
  (lastView k g).isSome

def touchedF (g : List DesignDefinition) (k : String) : Bool :=
  (lastFilter k g).isSome

/-- The last document of a bulk-update batch stored under id `k`. -/
def writeLookup : List DesignDoc → String → Option DesignDoc
  | [], _ => none
  | d :: ds, k =>
    match writeLookup ds k with
    | some x => some x
    | none => if d.docId = k then some d else none

/-- Well-formedness of a document as a Python dictionary tree: section keys
are duplicate-free. -/
def DocWF (d : DesignDoc) : Prop :=
  (akeys (d.views.getD [])).Nodup ∧ (akeys (d.filters.getD [])).Nodup

/-- Well-formedness of a database state: every stored document is stored
under its own id and is well-formed. -/
def DbWF (db : Db) : Prop :=
  ∀ p ∈ db, p.2.docId = p.1 ∧ DocWF p.2

/-- Run `sync_many` twice with the same definitions, the second time against
the state produced by the first run, and report how many documents the second
bulk update submits (`none` when either call raises). -/
def run2Writes (db : Db) (defs : List DesignDefinition) (rm : Bool) : Option Nat :=
  match syncMany db defs rm with
  | Except.error _ => none
  | Except.ok (_, db1) =>
    match syncMany db1 defs rm with
    | Except.error _ => none
    | Except.ok (ds, _) => some ds.length

/-! Spec-side normalization, following the wording of the specification.
Here `specNormalizeClaim` renders the description given by the claim literally (trailing
newline removal after decorator stripping; a single leading newline stripped;
the common leading whitespace shared by all lines removed), to be compared
against the normalization of the code.  `specNormalizeAmended` renders the amended
description (all trailing whitespace stripped before decorator stripping; all
leading newlines stripped; textwrap margin semantics), formulated with
independent recursions. -/

/-- Remove one trailing newline, when present. -/
def specDropTrailingNL (s : String) : String :=
  match s.data.reverse with
  | '\n' :: r => String.mk r.reverse
  | _ => s

/-- Remove a single leading newline, when present. -/
def specDropOneLeadNL (s : String) : String :=
  match s.data with
  | '\n' :: r => String.mk r
  | _ => s

/-- The leading whitespace shared by all lines of the text. -/
def specCommonWsMargin (s : String) : List Char :=
  match (splitNL s).map lineIndent with
  | [] => []
  | i :: is => is.foldl lcpChars i

/-- Remove the common leading whitespace shared by all lines. -/
def specRemoveCommonWs (s : String) : String :=
  let margin := specCommonWsMargin s
  joinNL ((splitNL s).map (fun l => String.mk (l.data.drop margin.length)))

/-- The normalization as worded by the claim. -/
def specNormalizeClaim : FunArg → String
  | FunArg.str s => if s = "" then s else specRemoveCommonWs (specDropOneLeadNL s)
  | FunArg.func src =>
    let t := specDropTrailingNL (stripDecorators src)
    if t = "" then t else specRemoveCommonWs (specDropOneLeadNL t)

/-- Remove all trailing whitespace (recursive formulation). -/
def specRstrip : List Char → List Char
  | [] => []
  | c :: rest =>
    match specRstrip rest with
    | [] => if isPyWs c then [] else [c]
    | r => c :: r

/-- Remove all leading newline characters (recursive formulation). -/
def specDropLeadNLs : List Char → List Char
  | [] => []
  | c :: rest => if c = '\n' then specDropLeadNLs rest else c :: rest

/-- Dedenting with the margin taken as the longest common prefix of the
indents of the non-blank lines (whitespace-only lines counting as blank and
normalized to empty). -/
def specDedent (s : String) : String :=
  let lines := (splitNL s).map blankWsOnly
  let nonblank := lines.filter (fun l => !(decide (l = "")))
  let margin := match nonblank.map lineIndent with
    | [] => []
    | i :: is => is.foldl lcpChars i
  joinNL (lines.map (fun l =>
    if leadsWith margin l.data then String.mk (l.data.drop margin.length) else l))

/-- The amended normalization: right-strip (functions only), strip decorator
lines, then for a non-empty body drop every leading newline and dedent. -/
def specNormalizeAmended : FunArg → String
  | FunArg.str s => if s = "" then s else specDedent (String.mk (specDropLeadNLs s.data))
  | FunArg.func src =>
    let t := stripDecorators (String.mk (specRstrip src.data))
    if t = "" then t else specDedent (String.mk (specDropLeadNLs t.data))

/-! Concrete instances used in scenario theorems, witnesses and
counterexamples below. -/

def cexD1 : DesignDefinition :=
  ⟨"d", "v1", some "m1", none, none, "javascript", none⟩

def cexE : DesignDefinition :=
  ⟨"e", "w", some "m", none, none, "javascript", none⟩

def cexD2 : DesignDefinition :=
  ⟨"d", "v2", some "m2", none, none, "javascript", none⟩

/-- A definition carrying both a truthy map body and a truthy filter body. -/
def cexBoth : DesignDefinition :=
  ⟨"d", "n", some "m", none, some "f", "javascript", none⟩

def c4Def : DesignDefinition :=
  ⟨"t", "a", some "srcA", none, none, "javascript", none⟩

/-- A stored design document with views `a` and `b` holding arbitrary bundles. -/
def c4Doc (fx fy : Funcs) : DesignDoc :=
  ⟨"_design/t", none, some [("a", fx), ("b", fy)], none⟩

def c4Funcs : Funcs :=
  ⟨some "srcA", none, none⟩

def c4Out1 : DesignDoc :=
  ⟨"_design/t", some "javascript", some [("a", c4Funcs)], none⟩

def c4Out2 (fy : Funcs) : DesignDoc :=
  ⟨"_design/t", some "javascript", some [("a", c4Funcs), ("b", fy)], none⟩

/-- Two view definitions for the same design document with different
execution languages. -/
def c1Js : DesignDefinition :=
  ⟨"d", "a", some "m", none, none, "javascript", none⟩

def c1Py : DesignDefinition :=
  ⟨"d", "b", some "m", none, none, "python", none⟩

/-- The documents produced by the first synchronization run of the
idempotence witness. -/
def c3W1 : DesignDoc :=
  ⟨"_design/d", some "javascript", some [("v1", ⟨some "m1", none, none⟩)], none⟩

def c3W2 : DesignDoc :=
  ⟨"_design/e", some "javascript", some [("w", ⟨some "m", none, none⟩)], none⟩

/-- A definition carrying an empty-string map body and no filter body. -/
def c10Def : DesignDefinition :=
  ⟨"d", "v", some "", none, none, "javascript", none⟩

/-! Basic lemmas about the dictionary operations. -/

theorem aget_aset {α : Type} (m : List (String × α)) (k k' : String) (v : α) :
    aget (aset m k v) k' = if k = k' then some v else aget m k' := by
  induction m with
  | nil => by_cases hkk : k = k' <;> simp [aset, aget, hkk]
  | cons p rest ih =>
    by_cases hkk : k = k'
    · subst hkk
      by_cases h : p.1 = k <;> simp [aset, aget, h, ih]
    · by_cases h : p.1 = k
      · have h' : ¬ p.1 = k' := fun e => hkk (h.symm.trans e)
        have hkk' : ¬ k' = k := fun e => hkk e.symm
        simp [aset, aget, h, h', hkk, hkk']
      · by_cases h' : p.1 = k'
        · have hkk' : ¬ k' = k := fun e => hkk e.symm
          simp [aset, aget, h, h', hkk, hkk', ih]
        · simp [aset, aget, h, h', hkk, ih]

theorem aget_adel {α : Type} (m : List (String × α)) (k k' : String) :
    aget (adel m k) k' = if k = k' then none else aget m k' := by
  induction m with
  | nil => by_cases hkk : k = k' <;> simp [adel, aget, hkk]
  | cons p rest ih =>
    by_cases hkk : k = k'
    · subst hkk
      by_cases h : p.1 = k <;> simp [adel, aget, h, ih]
    · by_cases h : p.1 = k
      · have h' : ¬ p.1 = k' := fun e => hkk (h.symm.trans e)
        have hkk' : ¬ k' = k := fun e => hkk e.symm
        simp [adel, aget, h, h', hkk, hkk', ih]
      · by_cases h' : p.1 = k'
        · have hkk' : ¬ k' = k := fun e => hkk e.symm
          simp [adel, aget, h, h', hkk, hkk', ih]
        · simp [adel, aget, h, h', hkk, ih]

theorem aget_eq_none_of_not_mem {α : Type} (m : List (String × α)) (k : String)
    (h : k ∉ akeys m) : aget m k = none := by
  induction m with
  | nil => rfl
  | cons p rest ih =>
    simp only [akeys, List.map_cons, List.mem_cons] at h
    push_neg at h
    have h1 : ¬ p.1 = k := fun e => h.1 e.symm
    have h2 : k ∉ akeys rest := by simpa [akeys] using h.2
    simp [aget, h1, ih h2]

theorem mem_akeys_iff_isSome {α : Type} (m : List (String × α)) (k : String) :
    k ∈ akeys m ↔ (aget m k).isSome := by
  induction m with
  | nil => simp [akeys, aget]
  | cons p rest ih =>
    by_cases h : p.1 = k
    · simp [akeys, aget, h]
    · have h1 : ¬ k = p.1 := fun e => h e.symm
      simp only [akeys, List.map_cons, List.mem_cons]
      rw [show aget (p :: rest) k = aget rest k by simp [aget, h]]
      simpa [h1, akeys] using ih

theorem akeys_aset {α : Type} (m : List (String × α)) (k : String) (v : α) :
    akeys (aset m k v) = if k ∈ akeys m then akeys m else akeys m ++ [k] := by
  induction m with
  | nil => simp [aset, akeys]
  | cons p rest ih =>
    by_cases h : p.1 = k
    · simp [aset, akeys, h, List.mem_cons]
    · have hk : ¬ k = p.1 := fun e => h e.symm
      have hstep : aset (p :: rest) k v = p :: aset rest k v := by simp [aset, h]
      by_cases hm : k ∈ akeys rest
      · have hc : k ∈ akeys (p :: rest) := by
          show k ∈ p.1 :: akeys rest
          exact List.mem_cons_of_mem _ hm
        rw [hstep]
        show p.1 :: akeys (aset rest k v) = _
        rw [ih, if_pos hm, if_pos hc]
        rfl
      · have hc : k ∉ akeys (p :: rest) := by
          show k ∉ p.1 :: akeys rest
          intro hmem
          rcases List.mem_cons.mp hmem with e | e
          · exact hk e
          · exact hm e
        rw [hstep]
        show p.1 :: akeys (aset rest k v) = _
        rw [ih, if_neg hm, if_neg hc]
        rfl

theorem nodup_akeys_aset {α : Type} (m : List (String × α)) (k : String) (v : α)
    (h : (akeys m).Nodup) : (akeys (aset m k v)).Nodup := by
  rw [akeys_aset]
  by_cases hm : k ∈ akeys m
  · simpa [hm] using h
  · simp only [hm, if_neg, if_false]
    rw [List.nodup_append]
    refine ⟨h, List.nodup_singleton k, ?_⟩
    intro a ha hb
    simp only [List.mem_singleton] at hb
    exact hm (hb ▸ ha)

theorem akeys_adel {α : Type} (m : List (String × α)) (k : String) :
    akeys (adel m k) = (akeys m).filter (fun x => !(decide (x = k))) := by
  induction m with
  | nil => rfl
  | cons p rest ih =>
    by_cases h : p.1 = k
    · simpa [adel, akeys, h, List.filter_cons] using ih
    · simpa [adel, akeys, h, List.filter_cons] using ih

theorem nodup_akeys_adel {α : Type} (m : List (String × α)) (k : String)
    (h : (akeys m).Nodup) : (akeys (adel m k)).Nodup := by
  rw [akeys_adel]
  exact h.filter _

theorem aget_foldl_adel {α : Type} (names : List String) (m : List (String × α)) (k : String) :
    aget (names.foldl (fun acc n => adel acc n) m) k =
      if k ∈ names then none else aget m k := by
  induction names generalizing m with
  | nil => simp
  | cons n rest ih =>
    by_cases h : k = n
    · subst h
      simp [ih, aget_adel]
    · simp [ih, aget_adel, h, Ne.symm h, List.mem_cons]

/-! Lemmas about the language set. -/

theorem mem_insLang (l : List String) (x y : String) :
    y ∈ insLang l x ↔ y ∈ l ∨ y = x := by
  by_cases h : x ∈ l
  · simp only [insLang, if_pos h]
    constructor
    · exact Or.inl
    · rintro (hy | rfl)
      · exact hy
      · exact h
  · simp [insLang, h]

theorem length_le_insLang (l : List String) (x : String) :
    l.length ≤ (insLang l x).length := by
  by_cases h : x ∈ l <;> simp [insLang, h]

theorem insLang_eq_singleton (l : List String) (x a : String)
    (h : insLang l x = [a]) : l = [] ∨ l = [a] := by
  by_cases hm : x ∈ l
  · right
    simpa [insLang, hm] using h
  · simp only [insLang, if_neg hm] at h
    rcases l with _ | ⟨b, l'⟩
    · exact Or.inl rfl
    · right
      rcases l' with _ | ⟨c, l''⟩
      · simp only [List.cons_append, List.nil_append, List.cons.injEq] at h
        simp [h.1]
      · exfalso
        have := congrArg List.length h
        simp [List.length_append] at this

theorem insLang_self (l : List String) (x : String) (h : x ∈ l) :
    insLang l x = l := by
  simp [insLang, h]

/-! Characterization of the synchronization loop. -/

theorem vget_getD {α : Type} (o : Option (List (String × α))) (k : String) :
    aget (o.getD []) k = vget o k := by
  cases o <;> rfl

theorem lastView_cons (k : String) (v : DesignDefinition) (g : List DesignDefinition) :
    lastView k (v :: g) =
      match lastView k g with
      | some w => some w
      | none => if isViewDef v && decide (v.name = k) then some v else none := rfl

theorem lastFilter_cons (k : String) (v : DesignDefinition) (g : List DesignDefinition) :
    lastFilter k (v :: g) =
      match lastFilter k g with
      | some w => some w
      | none => if truthy v.filter_fun && decide (v.name = k) then some v else none := rfl

theorem touchedV_cons (v : DesignDefinition) (g : List DesignDefinition) (k : String) :
    touchedV (v :: g) k = (touchedV g k || (isViewDef v && decide (v.name = k))) := by
  unfold touchedV
  rw [lastView_cons]
  cases hl : lastView k g
  · cases hc : (isViewDef v && decide (v.name = k)) <;> simp [hc]
  · simp

theorem touchedF_cons (v : DesignDefinition) (g : List DesignDefinition) (k : String) :
    touchedF (v :: g) k = (touchedF g k || (truthy v.filter_fun && decide (v.name = k))) := by
  unfold touchedF
  rw [lastFilter_cons]
  cases hl : lastFilter k g
  · cases hc : (truthy v.filter_fun && decide (v.name = k)) <;> simp [hc]
  · simp

theorem foldl_syncStep_docId (g : List DesignDefinition) (st : LoopState) :
    (g.foldl syncStep st).doc.docId = st.doc.docId := by
  induction g generalizing st with
  | nil => rfl
  | cons v g ih =>
    rw [List.foldl_cons, ih]
    by_cases h : truthy v.filter_fun <;> simp [syncStep, h]

theorem foldl_syncStep_language (g : List DesignDefinition) (st : LoopState) :
    (g.foldl syncStep st).doc.language = st.doc.language := by
  induction g generalizing st with
  | nil => rfl
  | cons v g ih =>
    rw [List.foldl_cons, ih]
    by_cases h : truthy v.filter_fun <;> simp [syncStep, h]

theorem foldl_syncStep_languages (g : List DesignDefinition) (st : LoopState) :
    (g.foldl syncStep st).languages =
      g.foldl (fun l v => insLang l v.language) st.languages := by
  induction g generalizing st with
  | nil => rfl
  | cons v g ih =>
    rw [List.foldl_cons, List.foldl_cons, ih]
    by_cases h : truthy v.filter_fun <;> simp [syncStep, h]

theorem foldl_syncStep_missing_views (g : List DesignDefinition) (st : LoopState) :
    (g.foldl syncStep st).missing_views =
      g.foldl (fun m v => if isViewDef v then m.erase v.name else m) st.missing_views := by
  induction g generalizing st with
  | nil => rfl
  | cons v g ih =>
    rw [List.foldl_cons, List.foldl_cons, ih]
    by_cases h : truthy v.filter_fun <;> simp [syncStep, isViewDef, h]

theorem foldl_syncStep_missing_filters (g : List DesignDefinition) (st : LoopState) :
    (g.foldl syncStep st).missing_filters =
      g.foldl (fun m v => if truthy v.filter_fun then m.erase v.name else m) st.missing_filters := by
  induction g generalizing st with
  | nil => rfl
  | cons v g ih =>
    rw [List.foldl_cons, List.foldl_cons, ih]
    by_cases h : truthy v.filter_fun <;> simp [syncStep, h]

theorem mem_foldl_insLang (g : List DesignDefinition) (init : List String) (x : String) :
    x ∈ g.foldl (fun l v => insLang l v.language) init ↔
      x ∈ init ∨ ∃ v ∈ g, v.language = x := by
  induction g generalizing init with
  | nil => simp
  | cons v g ih =>
    rw [List.foldl_cons, ih]
    simp only [mem_insLang, List.mem_cons]
    constructor
    · rintro ((hi | he) | ⟨w, hw, hl⟩)
      · exact Or.inl hi
      · exact Or.inr ⟨v, Or.inl rfl, he.symm⟩
      · exact Or.inr ⟨w, Or.inr hw, hl⟩
    · rintro (hi | ⟨w, (rfl | hw), hl⟩)
      · exact Or.inl (Or.inl hi)
      · exact Or.inl (Or.inr hl.symm)
      · exact Or.inr ⟨w, hw, hl⟩

theorem mem_defsLangs (g : List DesignDefinition) (x : String) :
    x ∈ defsLangs g ↔ ∃ v ∈ g, v.language = x := by
  simpa [defsLangs] using mem_foldl_insLang g [] x

theorem defsLangs_ne_nil (v : DesignDefinition) (g : List DesignDefinition) :
    defsLangs (v :: g) ≠ [] := by
  intro h
  have : v.language ∈ defsLangs (v :: g) :=
    (mem_defsLangs _ _).mpr ⟨v, List.mem_cons_self v g, rfl⟩
  rw [h] at this
  exact List.not_mem_nil _ this

theorem filter_eq_self_of_not_mem (l : List String) (a : String) (h : a ∉ l) :
    l.filter (fun x => !(decide (x = a))) = l := by
  induction l with
  | nil => rfl
  | cons b l ih =>
    simp only [List.mem_cons] at h
    push_neg at h
    have h1 : ¬ b = a := fun e => h.1 e.symm
    simp [List.filter_cons, h1, ih h.2]

theorem nodup_erase_eq_filter (l : List String) (a : String) (h : l.Nodup) :
    l.erase a = l.filter (fun x => !(decide (x = a))) := by
  induction l with
  | nil => rfl
  | cons b l ih =>
    by_cases hb : b = a
    · subst hb
      rw [List.erase_cons_head]
      have hnm : b ∉ l := (List.nodup_cons.mp h).1
      have hstep : (b :: l).filter (fun x => !(decide (x = b))) =
          l.filter (fun x => !(decide (x = b))) := by
        simp [List.filter_cons]
      rw [hstep, filter_eq_self_of_not_mem l b hnm]
    · rw [List.erase_cons_tail (by simp [hb])]
      simp [List.filter_cons, hb, ih (List.nodup_cons.mp h).2]

theorem foldl_erase_views_eq_filter (g : List DesignDefinition) (l : List String)
    (h : l.Nodup) :
    g.foldl (fun m v => if isViewDef v then m.erase v.name else m) l =
      l.filter (fun k => !(touchedV g k)) := by
  induction g generalizing l with
  | nil =>
    rw [List.foldl_nil]
    have : ∀ k ∈ l, !(touchedV [] k) = true := by
      intro k _
      simp [touchedV, lastView]
    exact (List.filter_eq_self.mpr this).symm
  | cons v g ih =>
    rw [List.foldl_cons]
    by_cases hv : isViewDef v
    · rw [if_pos hv, ih _ (h.erase _), nodup_erase_eq_filter _ _ h, List.filter_filter]
      apply List.filter_congr
      intro k _
      by_cases e : k = v.name
      · subst e
        simp [touchedV_cons, hv]
      · have e' : ¬ v.name = k := fun x => e x.symm
        by_cases t : touchedV g k <;> simp [touchedV_cons, hv, e, e', t]
    · rw [if_neg hv, ih _ h]
      apply List.filter_congr
      intro k _
      simp [touchedV_cons, hv]

theorem foldl_erase_filters_eq_filter (g : List DesignDefinition) (l : List String)
    (h : l.Nodup) :
    g.foldl (fun m v => if truthy v.filter_fun then m.erase v.name else m) l =
      l.filter (fun k => !(touchedF g k)) := by
  induction g generalizing l with
  | nil =>
    rw [List.foldl_nil]
    have : ∀ k ∈ l, !(touchedF [] k) = true := by
      intro k _
      simp [touchedF, lastFilter]
    exact (List.filter_eq_self.mpr this).symm
  | cons v g ih =>
    rw [List.foldl_cons]
    by_cases hv : truthy v.filter_fun
    · rw [if_pos hv, ih _ (h.erase _), nodup_erase_eq_filter _ _ h, List.filter_filter]
      apply List.filter_congr
      intro k _
      by_cases e : k = v.name
      · subst e
        simp [touchedF_cons, hv]
      · have e' : ¬ v.name = k := fun x => e x.symm
        by_cases t : touchedF g k <;> simp [touchedF_cons, hv, e, e', t]
    · rw [if_neg hv, ih _ h]
      apply List.filter_congr
      intro k _
      simp [touchedF_cons, hv]

theorem foldl_syncStep_vget_views (g : List DesignDefinition) (st : LoopState) (k : String) :
    vget (g.foldl syncStep st).doc.views k =
      match lastView k g with
      | some v => some (mkFuncs v)
      | none => vget st.doc.views k := by
  induction g generalizing st with
  | nil => rfl
  | cons v g ih =>
    rw [List.foldl_cons, ih, lastView_cons]
    cases hl : lastView k g
    · by_cases hv : truthy v.filter_fun
      · have hview : isViewDef v = false := by simp [isViewDef, hv]
        simp [syncStep, hv, hview]
      · have hview : isViewDef v = true := by simp [isViewDef, hv]
        have hstep : (syncStep st v).doc.views =
            some (aset (st.doc.views.getD []) v.name (mkFuncs v)) := by
          simp [syncStep, hv]
        by_cases hn : v.name = k
        · simp [hstep, vget, aget_aset, hview, hn]
        · simp [hstep, vget, aget_aset, hview, hn, vget_getD]
    · simp

theorem foldl_syncStep_vget_filters (g : List DesignDefinition) (st : LoopState) (k : String) :
    vget (g.foldl syncStep st).doc.filters k =
      match lastFilter k g with
      | some v => some (v.filter_fun.getD "")
      | none => vget st.doc.filters k := by
  induction g generalizing st with
  | nil => rfl
  | cons v g ih =>
    rw [List.foldl_cons, ih, lastFilter_cons]
    cases hl : lastFilter k g
    · by_cases hv : truthy v.filter_fun
      · have hstep : (syncStep st v).doc.filters =
            some (aset (st.doc.filters.getD []) v.name (v.filter_fun.getD "")) := by
          simp [syncStep, hv]
        by_cases hn : v.name = k
        · simp [hstep, vget, aget_aset, hv, hn]
        · simp [hstep, vget, aget_aset, hv, hn, vget_getD]
      · simp [syncStep, hv]
    · simp

theorem foldl_syncStep_views_of_no_view (g : List DesignDefinition) (st : LoopState)
    (h : ∀ v ∈ g, isViewDef v = false) :
    (g.foldl syncStep st).doc.views = st.doc.views := by
  induction g generalizing st with
  | nil => rfl
  | cons v g ih =>
    rw [List.foldl_cons, ih _ (fun w hw => h w (List.mem_cons_of_mem v hw))]
    have hv : truthy v.filter_fun = true := by
      have := h v (List.mem_cons_self v g)
      simpa [isViewDef] using this
    simp [syncStep, hv]

theorem foldl_syncStep_filters_of_no_filter (g : List DesignDefinition) (st : LoopState)
    (h : ∀ v ∈ g, truthy v.filter_fun = false) :
    (g.foldl syncStep st).doc.filters = st.doc.filters := by
  induction g generalizing st with
  | nil => rfl
  | cons v g ih =>
    rw [List.foldl_cons, ih _ (fun w hw => h w (List.mem_cons_of_mem v hw))]
    have hv := h v (List.mem_cons_self v g)
    simp [syncStep, hv]

theorem foldl_syncStep_views_isSome_mono (g : List DesignDefinition) (st : LoopState)
    (h : (st.doc.views).isSome = true) :
    ((g.foldl syncStep st).doc.views).isSome = true := by
  induction g generalizing st with
  | nil => exact h
  | cons v g ih =>
    rw [List.foldl_cons]
    apply ih
    by_cases hv : truthy v.filter_fun <;> simp [syncStep, hv, h]

theorem foldl_syncStep_filters_isSome_mono (g : List DesignDefinition) (st : LoopState)
    (h : (st.doc.filters).isSome = true) :
    ((g.foldl syncStep st).doc.filters).isSome = true := by
  induction g generalizing st with
  | nil => exact h
  | cons v g ih =>
    rw [List.foldl_cons]
    apply ih
    by_cases hv : truthy v.filter_fun <;> simp [syncStep, hv, h]

theorem foldl_syncStep_views_isSome_of_view (g : List DesignDefinition) (st : LoopState)
    (h : ∃ v ∈ g, isViewDef v = true) :
    ((g.foldl syncStep st).doc.views).isSome = true := by
  induction g generalizing st with
  | nil => simp at h
  | cons v g ih =>
    rw [List.foldl_cons]
    rcases h with ⟨w, hw, hwv⟩
    rcases List.mem_cons.mp hw with rfl | hw'
    · apply foldl_syncStep_views_isSome_mono
      have hv : truthy w.filter_fun = false := by simpa [isViewDef] using hwv
      simp [syncStep, hv]
    · exact ih _ ⟨w, hw', hwv⟩

theorem foldl_syncStep_filters_isSome_of_filter (g : List DesignDefinition) (st : LoopState)
    (h : ∃ v ∈ g, truthy v.filter_fun = true) :
    ((g.foldl syncStep st).doc.filters).isSome = true := by
  induction g generalizing st with
  | nil => simp at h
  | cons v g ih =>
    rw [List.foldl_cons]
    rcases h with ⟨w, hw, hwv⟩
    rcases List.mem_cons.mp hw with rfl | hw'
    · apply foldl_syncStep_filters_isSome_mono
      simp [syncStep, hwv]
    · exact ih _ ⟨w, hw', hwv⟩

theorem foldl_syncStep_views_keys (g : List DesignDefinition) (st : LoopState) :
    ∃ extra, akeys ((g.foldl syncStep st).doc.views.getD []) =
      akeys (st.doc.views.getD []) ++ extra ∧ ∀ k ∈ extra, touchedV g k = true := by
  induction g generalizing st with
  | nil => exact ⟨[], by simp⟩
  | cons v g ih =>
    rw [List.foldl_cons]
    obtain ⟨extra, he, ht⟩ := ih (syncStep st v)
    by_cases hv : truthy v.filter_fun
    · have hstep : (syncStep st v).doc.views = st.doc.views := by simp [syncStep, hv]
      refine ⟨extra, by rw [he, hstep], ?_⟩
      intro k hk
      rw [touchedV_cons]
      simp [ht k hk]
    · have hview : isViewDef v = true := by simp [isViewDef, hv]
      have hstep : (syncStep st v).doc.views.getD [] =
          aset (st.doc.views.getD []) v.name (mkFuncs v) := by
        simp [syncStep, hv]
      by_cases hm : v.name ∈ akeys (st.doc.views.getD [])
      · refine ⟨extra, ?_, ?_⟩
        · rw [he, hstep, akeys_aset, if_pos hm]
        · intro k hk
          rw [touchedV_cons]
          simp [ht k hk]
      · refine ⟨v.name :: extra, ?_, ?_⟩
        · rw [he, hstep, akeys_aset, if_neg hm, List.append_assoc]
          rfl
        · intro k hk
          rcases List.mem_cons.mp hk with rfl | hk'
          · rw [touchedV_cons]
            simp [hview]
          · rw [touchedV_cons]
            simp [ht k hk']

theorem foldl_syncStep_filters_keys (g : List DesignDefinition) (st : LoopState) :
    ∃ extra, akeys ((g.foldl syncStep st).doc.filters.getD []) =
      akeys (st.doc.filters.getD []) ++ extra ∧ ∀ k ∈ extra, touchedF g k = true := by
  induction g generalizing st with
  | nil => exact ⟨[], by simp⟩
  | cons v g ih =>
    rw [List.foldl_cons]
    obtain ⟨extra, he, ht⟩ := ih (syncStep st v)
    by_cases hv : truthy v.filter_fun
    · have hstep : (syncStep st v).doc.filters.getD [] =
          aset (st.doc.filters.getD []) v.name (v.filter_fun.getD "") := by
        simp [syncStep, hv]
      by_cases hm : v.name ∈ akeys (st.doc.filters.getD [])
      · refine ⟨extra, ?_, ?_⟩
        · rw [he, hstep, akeys_aset, if_pos hm]
        · intro k hk
          rw [touchedF_cons]
          simp [ht k hk]
      · refine ⟨v.name :: extra, ?_, ?_⟩
        · rw [he, hstep, akeys_aset, if_neg hm, List.append_assoc]
          rfl
        · intro k hk
          rcases List.mem_cons.mp hk with rfl | hk'
          · rw [touchedF_cons]
            simp [hv]
          · rw [touchedF_cons]
            simp [ht k hk']
    · have hstep : (syncStep st v).doc.filters = st.doc.filters := by simp [syncStep, hv]
      refine ⟨extra, by rw [he, hstep], ?_⟩
      intro k hk
      rw [touchedF_cons]
      simp [ht k hk]

theorem foldl_syncStep_views_nodup (g : List DesignDefinition) (st : LoopState)
    (h : (akeys (st.doc.views.getD [])).Nodup) :
    (akeys ((g.foldl syncStep st).doc.views.getD [])).Nodup := by
  induction g generalizing st with
  | nil => exact h
  | cons v g ih =>
    rw [List.foldl_cons]
    apply ih
    by_cases hv : truthy v.filter_fun
    · simpa [syncStep, hv] using h
    · have hstep : (syncStep st v).doc.views.getD [] =
          aset (st.doc.views.getD []) v.name (mkFuncs v) := by
        simp [syncStep, hv]
      rw [hstep]
      exact nodup_akeys_aset _ _ _ h

theorem foldl_syncStep_filters_nodup (g : List DesignDefinition) (st : LoopState)
    (h : (akeys (st.doc.filters.getD [])).Nodup) :
    (akeys ((g.foldl syncStep st).doc.filters.getD [])).Nodup := by
  induction g generalizing st with
  | nil => exact h
  | cons v g ih =>
    rw [List.foldl_cons]
    apply ih
    by_cases hv : truthy v.filter_fun
    · have hstep : (syncStep st v).doc.filters.getD [] =
          aset (st.doc.filters.getD []) v.name (v.filter_fun.getD "") := by
        simp [syncStep, hv]
      rw [hstep]
      exact nodup_akeys_aset _ _ _ h
    · simpa [syncStep, hv] using h

/-! Dictionary equality lemmas. -/

theorem dictEq_iff {α : Type} (beq : α → α → Bool) (a b : List (String × α)) :
    dictEq beq a b = true ↔ ∀ k, obeq beq (aget a k) (aget b k) = true := by
  unfold dictEq
  rw [List.all_eq_true]
  constructor
  · intro h k
    by_cases ha : k ∈ akeys a
    · exact h k (List.mem_append.mpr (Or.inl ha))
    · by_cases hb : k ∈ akeys b
      · exact h k (List.mem_append.mpr (Or.inr hb))
      · rw [aget_eq_none_of_not_mem _ _ ha, aget_eq_none_of_not_mem _ _ hb]
        rfl
  · intro h k _
    exact h k

theorem obeq_refl {α : Type} (beq : α → α → Bool) (hrefl : ∀ x, beq x x = true)
    (o : Option α) : obeq beq o o = true := by
  cases o with
  | none => rfl
  | some x => exact hrefl x

theorem strEq_refl (s : String) : strEq s s = true := by
  simp [strEq]

theorem dictEq_strEq_refl (m : List (String × String)) : dictEq strEq m m = true :=
  (dictEq_iff strEq m m).mpr (fun k => obeq_refl strEq strEq_refl (aget m k))

theorem optsEq_refl (o : Option (List (String × String))) : optsEq o o = true := by
  cases o with
  | none => rfl
  | some m => exact dictEq_strEq_refl m

theorem funcsBEq_refl (f : Funcs) : funcsBEq f f = true := by
  unfold funcsBEq
  rw [obeq_refl strEq strEq_refl, obeq_refl strEq strEq_refl, optsEq_refl]
  rfl

theorem ovEq_of_vget {α : Type} (beq : α → α → Bool) (hrefl : ∀ x, beq x x = true)
    (a b : Option (List (String × α)))
    (hshape : a.isSome = b.isSome) (hvals : ∀ k, vget a k = vget b k) :
    ovEq beq a b = true := by
  cases a with
  | none =>
    cases b with
    | none => rfl
    | some m => simp at hshape
  | some ma =>
    cases b with
    | none => simp at hshape
    | some mb =>
      show dictEq beq ma mb = true
      apply (dictEq_iff beq ma mb).mpr
      intro k
      have hv := hvals k
      simp only [vget] at hv
      rw [hv]
      exact obeq_refl beq hrefl _

theorem docBEq_true_of (a b : DesignDoc) (h1 : a.docId = b.docId)
    (h2 : a.language = b.language) (h3 : ovEq funcsBEq a.views b.views = true)
    (h4 : ovEq strEq a.filters b.filters = true) : docBEq a b = true := by
  unfold docBEq
  rw [h1, h2, h3, h4, strEq_refl, obeq_refl strEq strEq_refl]
  rfl

/-! Inversion of one read-modify-write cycle. -/

theorem processGroup_error_of_conflict (doc0 : DesignDoc) (g : List DesignDefinition)
    (rm : Bool) (h : 1 < (finalLanguages doc0 g rm).length) :
    processGroup doc0 g rm = Except.error conflictMsg := by
  simp only [processGroup]
  rw [if_pos h]

theorem processGroup_ok_elim (doc0 : DesignDoc) (g : List DesignDefinition) (rm : Bool)
    (d : DesignDoc) (h : processGroup doc0 g rm = Except.ok d) :
    ∃ l, finalLanguages doc0 g rm = [l] ∧
      d = { (if rm then
               applyRemove (g.foldl syncStep (initState doc0)).doc
                 (g.foldl syncStep (initState doc0)).missing_views
                 (g.foldl syncStep (initState doc0)).missing_filters
             else (g.foldl syncStep (initState doc0)).doc) with language := some l } := by
  simp only [processGroup] at h
  by_cases hlen : 1 < (finalLanguages doc0 g rm).length
  · rw [if_pos hlen] at h
    cases h
  · rw [if_neg hlen] at h
    cases hl : finalLanguages doc0 g rm with
    | nil =>
      rw [hl] at h
      cases h
    | cons l rest =>
      rw [hl] at h
      have hr : rest = [] := by
        rw [hl] at hlen
        simp only [List.length_cons, not_lt] at hlen
        exact List.length_eq_zero.mp (by omega)
      subst hr
      exact ⟨l, rfl, (Except.ok.inj h).symm⟩

theorem processGroup_ok_of_singleton (doc0 : DesignDoc) (g : List DesignDefinition)
    (rm : Bool) (l : String) (h : finalLanguages doc0 g rm = [l]) :
    processGroup doc0 g rm =
      Except.ok { (if rm then
               applyRemove (g.foldl syncStep (initState doc0)).doc
                 (g.foldl syncStep (initState doc0)).missing_views
                 (g.foldl syncStep (initState doc0)).missing_filters
             else (g.foldl syncStep (initState doc0)).doc) with language := some l } := by
  simp only [processGroup]
  rw [h]
  simp

/-! Structure of the contiguous grouping. -/

theorem groupRuns_cons_head (v : DesignDefinition) (l : List DesignDefinition) :
    ∃ g gs, groupRuns (v :: l) = (v :: g) :: gs := by
  cases hl : groupRuns l with
  | nil => exact ⟨[], [], by simp [groupRuns, hl]⟩
  | cons g0 gs =>
    cases g0 with
    | nil => exact ⟨[], [] :: gs, by simp [groupRuns, hl]⟩
    | cons w g =>
      by_cases hd : v.design = w.design
      · exact ⟨w :: g, gs, by simp [groupRuns, hl, hd]⟩
      · exact ⟨[], (w :: g) :: gs, by simp [groupRuns, hl, hd]⟩

theorem groupRuns_flatten (l : List DesignDefinition) : (groupRuns l).flatten = l := by
  induction l with
  | nil => rfl
  | cons v l ih =>
    cases hl : groupRuns l with
    | nil =>
      have hnil : l = [] := by rw [← ih, hl]; rfl
      rw [show groupRuns (v :: l) = [[v]] from by simp [groupRuns, hl], hnil]
      rfl
    | cons g0 gs =>
      cases g0 with
      | nil =>
        rw [show groupRuns (v :: l) = [v] :: ([] :: gs) from by simp [groupRuns, hl]]
        rw [← ih, hl]
        simp
      | cons w g =>
        by_cases hd : v.design = w.design
        · rw [show groupRuns (v :: l) = (v :: w :: g) :: gs from by simp [groupRuns, hl, hd]]
          rw [← ih, hl]
          simp
        · rw [show groupRuns (v :: l) = [v] :: (w :: g) :: gs from by simp [groupRuns, hl, hd]]
          rw [← ih, hl]
          simp

theorem groupRuns_forall (l : List DesignDefinition) :
    ∀ g ∈ groupRuns l, g ≠ [] ∧ ∀ v ∈ g, v.design = groupDesign g := by
  induction l with
  | nil => simp [groupRuns]
  | cons v l ih =>
    cases hl : groupRuns l with
    | nil =>
      rw [show groupRuns (v :: l) = [[v]] from by simp [groupRuns, hl]]
      intro g hg
      rw [List.mem_singleton] at hg
      subst hg
      refine ⟨by simp, ?_⟩
      intro u hu
      rw [List.mem_singleton] at hu
      subst hu
      rfl
    | cons g0 gs =>
      cases g0 with
      | nil =>
        exfalso
        have := ih [] (by rw [hl]; exact List.mem_cons_self _ _)
        exact this.1 rfl
      | cons w g =>
        by_cases hd : v.design = w.design
        · rw [show groupRuns (v :: l) = (v :: w :: g) :: gs from by simp [groupRuns, hl, hd]]
          intro g' hg'
          rcases List.mem_cons.mp hg' with rfl | hg''
          · refine ⟨by simp, ?_⟩
            intro u hu
            rcases List.mem_cons.mp hu with rfl | hu'
            · rfl
            · have hin : (w :: g) ∈ groupRuns l := by
                rw [hl]; exact List.mem_cons_self _ _
              have := (ih _ hin).2 u hu'
              simp only [groupDesign] at this ⊢
              rw [this, ← hd]
          · exact ih g' (by rw [hl]; exact List.mem_cons_of_mem _ hg'')
        · rw [show groupRuns (v :: l) = [v] :: (w :: g) :: gs from by simp [groupRuns, hl, hd]]
          intro g' hg'
          rcases List.mem_cons.mp hg' with rfl | hg''
          · refine ⟨by simp, ?_⟩
            intro u hu
            rw [List.mem_singleton] at hu
            subst hu
            rfl
          · exact ih g' (by rw [hl]; exact hg'')

theorem groupRuns_chain (l : List DesignDefinition) :
    List.Chain' (fun a b => groupDesign a ≠ groupDesign b) (groupRuns l) := by
  induction l with
  | nil => simp [groupRuns]
  | cons v l ih =>
    cases hl : groupRuns l with
    | nil =>
      rw [show groupRuns (v :: l) = [[v]] from by simp [groupRuns, hl]]
      simp
    | cons g0 gs =>
      cases g0 with
      | nil =>
        exfalso
        have := groupRuns_forall l [] (by rw [hl]; exact List.mem_cons_self _ _)
        exact this.1 rfl
      | cons w g =>
        rw [hl] at ih
        by_cases hd : v.design = w.design
        · rw [show groupRuns (v :: l) = (v :: w :: g) :: gs from by simp [groupRuns, hl, hd]]
          cases gs with
          | nil => simp
          | cons g1 gs' =>
            have hch := List.chain'_cons.mp ih
            refine List.chain'_cons.mpr ⟨?_, hch.2⟩
            simp only [groupDesign]
            rw [hd]
            exact hch.1
        · rw [show groupRuns (v :: l) = [v] :: (w :: g) :: gs from by simp [groupRuns, hl, hd]]
          refine List.chain'_cons.mpr ⟨?_, ih⟩
          simpa [groupDesign] using hd

/-! Bulk update lemmas. -/

theorem aget_dbUpdate (db : Db) (ds : List DesignDoc) (k : String) :
    aget (dbUpdate db ds) k =
      match writeLookup ds k with
      | some d => some d
      | none => aget db k := by
  induction ds generalizing db with
  | nil => rfl
  | cons d ds ih =>
    rw [show dbUpdate db (d :: ds) = dbUpdate (aset db d.docId d) ds from rfl, ih]
    cases hw : writeLookup ds k
    · simp only [writeLookup, hw]
      rw [aget_aset]
      by_cases hk : d.docId = k <;> simp [hk]
    · simp [writeLookup, hw]

theorem writeLookup_eq_none (ds : List DesignDoc) (k : String)
    (h : ∀ d ∈ ds, d.docId ≠ k) : writeLookup ds k = none := by
  induction ds with
  | nil => rfl
  | cons d ds ih =>
    simp only [writeLookup, ih (fun x hx => h x (List.mem_cons_of_mem d hx))]
    simp [h d (List.mem_cons_self d ds)]

theorem writeLookup_append (ds1 ds2 : List DesignDoc) (k : String) :
    writeLookup (ds1 ++ ds2) k =
      match writeLookup ds2 k with
      | some d => some d
      | none => writeLookup ds1 k := by
  induction ds1 with
  | nil =>
    cases hw : writeLookup ds2 k <;> simp [writeLookup, hw]
  | cons d ds ih =>
    rw [List.cons_append]
    simp only [writeLookup, ih]
    cases hw : writeLookup ds2 k <;> cases hw1 : writeLookup ds k <;> simp

/-! Characterization of the accumulated language set. -/

theorem mem_finalLanguages (doc0 : DesignDoc) (g : List DesignDefinition) (rm : Bool)
    (x : String) :
    x ∈ finalLanguages doc0 g rm ↔
      (∃ v ∈ g, v.language = x) ∨
      (rm = false ∧
        ((g.foldl syncStep (initState doc0)).missing_views ≠ [] ∨
         (g.foldl syncStep (initState doc0)).missing_filters ≠ []) ∧
        doc0.language = some x) := by
  have hlang : (g.foldl syncStep (initState doc0)).doc.language = doc0.language :=
    foldl_syncStep_language g (initState doc0)
  have hlangs : (g.foldl syncStep (initState doc0)).languages =
      g.foldl (fun l v => insLang l v.language) [] :=
    foldl_syncStep_languages g (initState doc0)
  cases rm with
  | true =>
    simp only [finalLanguages, if_true]
    rw [hlangs]
    simp [mem_foldl_insLang]
  | false =>
    simp only [finalLanguages, if_false, Bool.false_eq_true]
    by_cases hc : ((!(g.foldl syncStep (initState doc0)).missing_views.isEmpty ||
        !(g.foldl syncStep (initState doc0)).missing_filters.isEmpty) &&
        ((g.foldl syncStep (initState doc0)).doc.language).isSome) = true
    · rw [if_pos hc]
      rw [Bool.and_eq_true, Bool.or_eq_true] at hc
      obtain ⟨hne, hsome⟩ := hc
      rw [hlang] at hsome
      obtain ⟨y, hy⟩ := Option.isSome_iff_exists.mp hsome
      rw [mem_insLang, hlangs, mem_foldl_insLang]
      have hgd : (g.foldl syncStep (initState doc0)).doc.language.getD "" = y := by
        rw [hlang, hy]
        rfl
      have hne' : (g.foldl syncStep (initState doc0)).missing_views ≠ [] ∨
          (g.foldl syncStep (initState doc0)).missing_filters ≠ [] := by
        rcases hne with h | h
        · exact Or.inl (by simpa [List.isEmpty_iff] using h)
        · exact Or.inr (by simpa [List.isEmpty_iff] using h)
      constructor
      · rintro ((h0 | hmem) | rfl)
        · simp at h0
        · exact Or.inl hmem
        · exact Or.inr ⟨trivial, hne', by rw [hgd, hy]⟩
      · rintro (hmem | ⟨_, _, hx⟩)
        · exact Or.inl (Or.inr hmem)
        · right
          rw [hgd]
          rw [hy] at hx
          exact (Option.some.inj hx).symm
    · rw [if_neg hc]
      rw [hlangs]
      rw [mem_foldl_insLang]
      simp only [List.not_mem_nil, false_or]
      constructor
      · exact Or.inl
      · rintro (hmem | ⟨_, hne, hx⟩)
        · exact hmem
        · exfalso
          apply hc
          rw [Bool.and_eq_true, Bool.or_eq_true]
          refine ⟨?_, by rw [hlang, hx]; rfl⟩
          rcases hne with h | h
          · exact Or.inl (by simpa [List.isEmpty_iff] using h)
          · exact Or.inr (by simpa [List.isEmpty_iff] using h)

/-! Removal and shape lemmas. -/

theorem applyRemove_docId (doc : DesignDoc) (mv mf : List String) :
    (applyRemove doc mv mf).docId = doc.docId := rfl

theorem applyRemove_language (doc : DesignDoc) (mv mf : List String) :
    (applyRemove doc mv mf).language = doc.language := rfl

theorem vget_applyRemove_views (doc : DesignDoc) (mv mf : List String) (k : String) :
    vget (applyRemove doc mv mf).views k = if k ∈ mv then none else vget doc.views k := by
  cases hv : doc.views with
  | none =>
    simp only [applyRemove, hv, vget]
    split <;> rfl
  | some m => simp [applyRemove, hv, vget, aget_foldl_adel]

theorem vget_applyRemove_filters (doc : DesignDoc) (mv mf : List String) (k : String) :
    vget (applyRemove doc mv mf).filters k = if k ∈ mf then none else vget doc.filters k := by
  cases hv : doc.filters with
  | none =>
    simp only [applyRemove, hv, vget]
    split <;> rfl
  | some m => simp [applyRemove, hv, vget, aget_foldl_adel]

theorem applyRemove_views_isSome (doc : DesignDoc) (mv mf : List String) :
    ((applyRemove doc mv mf).views).isSome = (doc.views).isSome := by
  cases hv : doc.views <;> simp [applyRemove, hv]

theorem applyRemove_filters_isSome (doc : DesignDoc) (mv mf : List String) :
    ((applyRemove doc mv mf).filters).isSome = (doc.filters).isSome := by
  cases hv : doc.filters <;> simp [applyRemove, hv]

theorem nodup_akeys_foldl_adel {α : Type} (names : List String) (m : List (String × α))
    (h : (akeys m).Nodup) : (akeys (names.foldl (fun acc n => adel acc n) m)).Nodup := by
  induction names generalizing m with
  | nil => exact h
  | cons n rest ih => exact ih _ (nodup_akeys_adel m n h)

theorem untouched_views_keys_after_loop (g : List DesignDefinition) (st : LoopState) :
    (akeys ((g.foldl syncStep st).doc.views.getD [])).filter (fun k => !(touchedV g k)) =
      (akeys (st.doc.views.getD [])).filter (fun k => !(touchedV g k)) := by
  obtain ⟨extra, he, ht⟩ := foldl_syncStep_views_keys g st
  rw [he, List.filter_append]
  have hnil : extra.filter (fun k => !(touchedV g k)) = [] := by
    apply List.filter_eq_nil_iff.mpr
    intro k hk
    simp [ht k hk]
  rw [hnil, List.append_nil]

theorem untouched_filters_keys_after_loop (g : List DesignDefinition) (st : LoopState) :
    (akeys ((g.foldl syncStep st).doc.filters.getD [])).filter (fun k => !(touchedF g k)) =
      (akeys (st.doc.filters.getD [])).filter (fun k => !(touchedF g k)) := by
  obtain ⟨extra, he, ht⟩ := foldl_syncStep_filters_keys g st
  rw [he, List.filter_append]
  have hnil : extra.filter (fun k => !(touchedF g k)) = [] := by
    apply List.filter_eq_nil_iff.mpr
    intro k hk
    simp [ht k hk]
  rw [hnil, List.append_nil]

theorem foldl_missing_views_eq (g : List DesignDefinition) (doc : DesignDoc)
    (h : (akeys (doc.views.getD [])).Nodup) :
    (g.foldl syncStep (initState doc)).missing_views =
      (akeys (doc.views.getD [])).filter (fun k => !(touchedV g k)) := by
  rw [foldl_syncStep_missing_views]
  exact foldl_erase_views_eq_filter g _ h

theorem foldl_missing_filters_eq (g : List DesignDefinition) (doc : DesignDoc)
    (h : (akeys (doc.filters.getD [])).Nodup) :
    (g.foldl syncStep (initState doc)).missing_filters =
      (akeys (doc.filters.getD [])).filter (fun k => !(touchedF g k)) := by
  rw [foldl_syncStep_missing_filters]
  exact foldl_erase_filters_eq_filter g _ h

theorem foldl_views_none_elim (g : List DesignDefinition) (st : LoopState)
    (h : (g.foldl syncStep st).doc.views = none) :
    st.doc.views = none ∧ ∀ v ∈ g, isViewDef v = false := by
  constructor
  · by_contra hn
    have h1 : (st.doc.views).isSome = true := Option.ne_none_iff_isSome.mp hn
    have h2 := foldl_syncStep_views_isSome_mono g st h1
    rw [h] at h2
    cases h2
  · intro v hv
    by_contra hn
    have hb : isViewDef v = true := by
      cases hbv : isViewDef v
      · exact absurd hbv hn
      · rfl
    have h2 := foldl_syncStep_views_isSome_of_view g st ⟨v, hv, hb⟩
    rw [h] at h2
    cases h2

theorem foldl_filters_none_elim (g : List DesignDefinition) (st : LoopState)
    (h : (g.foldl syncStep st).doc.filters = none) :
    st.doc.filters = none ∧ ∀ v ∈ g, truthy v.filter_fun = false := by
  constructor
  · by_contra hn
    have h1 : (st.doc.filters).isSome = true := Option.ne_none_iff_isSome.mp hn
    have h2 := foldl_syncStep_filters_isSome_mono g st h1
    rw [h] at h2
    cases h2
  · intro v hv
    by_contra hn
    have hb : truthy v.filter_fun = true := by
      cases hbv : truthy v.filter_fun
      · exact absurd hbv hn
      · rfl
    have h2 := foldl_syncStep_filters_isSome_of_filter g st ⟨v, hv, hb⟩
    rw [h] at h2
    cases h2

/-! Well-formedness preservation and fetch lemmas. -/

theorem aget_mem {α : Type} (m : List (String × α)) (k : String) (v : α)
    (h : aget m k = some v) : (k, v) ∈ m := by
  induction m with
  | nil => cases h
  | cons p rest ih =>
    by_cases hp : p.1 = k
    · rw [show aget (p :: rest) k = some p.2 from by simp [aget, hp]] at h
      have hv := Option.some.inj h
      rw [← hp, ← hv]
      exact List.mem_cons_self _ _
    · rw [show aget (p :: rest) k = aget rest k from by simp [aget, hp]] at h
      exact List.mem_cons_of_mem p (ih h)

theorem vget_eq_none_of_not_mem {α : Type} (o : Option (List (String × α))) (k : String)
    (h : k ∉ akeys (o.getD [])) : vget o k = none := by
  rw [← vget_getD]
  exact aget_eq_none_of_not_mem _ _ h

theorem mem_akeys_getD_iff {α : Type} (o : Option (List (String × α))) (k : String) :
    k ∈ akeys (o.getD []) ↔ (vget o k).isSome := by
  rw [mem_akeys_iff_isSome, vget_getD]

theorem lastView_eq_none_of_not_touched (g : List DesignDefinition) (k : String)
    (h : touchedV g k = false) : lastView k g = none := by
  unfold touchedV at h
  cases hl : lastView k g
  · rfl
  · rw [hl] at h
    cases h

theorem lastFilter_eq_none_of_not_touched (g : List DesignDefinition) (k : String)
    (h : touchedF g k = false) : lastFilter k g = none := by
  unfold touchedF at h
  cases hl : lastFilter k g
  · rfl
  · rw [hl] at h
    cases h

theorem processGroup_wf (doc0 : DesignDoc) (g : List DesignDefinition) (rm : Bool)
    (hwf : DocWF doc0) (d1 : DesignDoc) (h1 : processGroup doc0 g rm = Except.ok d1) :
    DocWF d1 := by
  obtain ⟨l, _, hd⟩ := processGroup_ok_elim _ _ _ _ h1
  subst hd
  have hv := foldl_syncStep_views_nodup g (initState doc0) hwf.1
  have hf := foldl_syncStep_filters_nodup g (initState doc0) hwf.2
  cases rm with
  | false => exact ⟨hv, hf⟩
  | true =>
    constructor
    · show (akeys ((applyRemove (g.foldl syncStep (initState doc0)).doc
        (g.foldl syncStep (initState doc0)).missing_views
        (g.foldl syncStep (initState doc0)).missing_filters).views.getD [])).Nodup
      cases hsv : (g.foldl syncStep (initState doc0)).doc.views with
      | none => simp [applyRemove, hsv, akeys]
      | some m =>
        rw [hsv] at hv
        simp only [applyRemove, hsv, Option.getD_some]
        exact nodup_akeys_foldl_adel _ _ (by simpa using hv)
    · show (akeys ((applyRemove (g.foldl syncStep (initState doc0)).doc
        (g.foldl syncStep (initState doc0)).missing_views
        (g.foldl syncStep (initState doc0)).missing_filters).filters.getD [])).Nodup
      cases hsf : (g.foldl syncStep (initState doc0)).doc.filters with
      | none => simp [applyRemove, hsf, akeys]
      | some m =>
        rw [hsf] at hf
        simp only [applyRemove, hsf, Option.getD_some]
        exact nodup_akeys_foldl_adel _ _ (by simpa using hf)

theorem processGroup_docId (doc0 : DesignDoc) (g : List DesignDefinition) (rm : Bool)
    (d1 : DesignDoc) (h1 : processGroup doc0 g rm = Except.ok d1) :
    d1.docId = doc0.docId := by
  obtain ⟨l, _, hd⟩ := processGroup_ok_elim _ _ _ _ h1
  subst hd
  show (if rm then _ else _ : DesignDoc).docId = doc0.docId
  cases rm with
  | false =>
    show (g.foldl syncStep (initState doc0)).doc.docId = doc0.docId
    exact foldl_syncStep_docId g _
  | true =>
    show (applyRemove (g.foldl syncStep (initState doc0)).doc _ _).docId = doc0.docId
    rw [applyRemove_docId]
    exact foldl_syncStep_docId g _

theorem skeleton_wf (design : String) : DocWF (skeleton design) :=
  ⟨List.nodup_nil, List.nodup_nil⟩

theorem fetchDoc_wf (db : Db) (design : String) (hdb : DbWF db) :
    DocWF (fetchDoc db design) := by
  unfold fetchDoc
  cases hg : aget db ("_design/" ++ design) with
  | none => exact skeleton_wf design
  | some d =>
    have hmem := aget_mem db _ d hg
    exact (hdb _ hmem).2

theorem fetchDoc_docId (db : Db) (design : String) (hdb : DbWF db) :
    (fetchDoc db design).docId = "_design/" ++ design := by
  unfold fetchDoc
  cases hg : aget db ("_design/" ++ design) with
  | none => rfl
  | some d =>
    have hmem := aget_mem db _ d hg
    exact (hdb _ hmem).1

theorem finalLanguages_true (doc0 : DesignDoc) (g : List DesignDefinition) :
    finalLanguages doc0 g true = (g.foldl syncStep (initState doc0)).languages := rfl

theorem finalLanguages_false (doc0 : DesignDoc) (g : List DesignDefinition) :
    finalLanguages doc0 g false =
      if (!(g.foldl syncStep (initState doc0)).missing_views.isEmpty ||
          !(g.foldl syncStep (initState doc0)).missing_filters.isEmpty) &&
          ((g.foldl syncStep (initState doc0)).doc.language).isSome then
        insLang (g.foldl syncStep (initState doc0)).languages
          ((g.foldl syncStep (initState doc0)).doc.language.getD "")
      else (g.foldl syncStep (initState doc0)).languages := rfl

theorem processGroup_stable_false (doc0 : DesignDoc) (g : List DesignDefinition)
    (hwf : DocWF doc0) (d1 : DesignDoc) (h1 : processGroup doc0 g false = Except.ok d1) :
    ∃ d2, processGroup d1 g false = Except.ok d2 ∧ docBEq d2 d1 = true := by
  obtain ⟨l, hfin1, hd1⟩ := processGroup_ok_elim _ _ _ _ h1
  have hd1' : d1 = { (g.foldl syncStep (initState doc0)).doc with language := some l } := by
    simpa using hd1
  have hRv : d1.views = (g.foldl syncStep (initState doc0)).doc.views := by rw [hd1']
  have hRf : d1.filters = (g.foldl syncStep (initState doc0)).doc.filters := by rw [hd1']
  have hRl : d1.language = some l := by rw [hd1']
  have hlangs1 : (g.foldl syncStep (initState doc0)).languages =
      g.foldl (fun s v => insLang s v.language) [] := foldl_syncStep_languages g _
  have hlangs2 : (g.foldl syncStep (initState d1)).languages =
      g.foldl (fun s v => insLang s v.language) [] := foldl_syncStep_languages g _
  have hwfd1 : DocWF d1 := processGroup_wf doc0 g false hwf d1 h1
  have hmv1 : (g.foldl syncStep (initState doc0)).missing_views =
      (akeys (doc0.views.getD [])).filter (fun k => !(touchedV g k)) :=
    foldl_missing_views_eq g doc0 hwf.1
  have hmv2 : (g.foldl syncStep (initState d1)).missing_views =
      (akeys (d1.views.getD [])).filter (fun k => !(touchedV g k)) :=
    foldl_missing_views_eq g d1 hwfd1.1
  have hmf1 : (g.foldl syncStep (initState doc0)).missing_filters =
      (akeys (doc0.filters.getD [])).filter (fun k => !(touchedF g k)) :=
    foldl_missing_filters_eq g doc0 hwf.2
  have hmf2 : (g.foldl syncStep (initState d1)).missing_filters =
      (akeys (d1.filters.getD [])).filter (fun k => !(touchedF g k)) :=
    foldl_missing_filters_eq g d1 hwfd1.2
  have hmveq : (g.foldl syncStep (initState d1)).missing_views =
      (g.foldl syncStep (initState doc0)).missing_views := by
    rw [hmv2, hmv1, hRv]
    exact untouched_views_keys_after_loop g (initState doc0)
  have hmfeq : (g.foldl syncStep (initState d1)).missing_filters =
      (g.foldl syncStep (initState doc0)).missing_filters := by
    rw [hmf2, hmf1, hRf]
    exact untouched_filters_keys_after_loop g (initState doc0)
  have hl2 : (g.foldl syncStep (initState d1)).doc.language = some l := by
    rw [foldl_syncStep_language]
    exact hRl
  have hl1 : (g.foldl syncStep (initState doc0)).doc.language = doc0.language :=
    foldl_syncStep_language g _
  have hfin2 : finalLanguages d1 g false = [l] := by
    rw [finalLanguages_false] at hfin1 ⊢
    rw [hmveq, hmfeq, hl2, hlangs2]
    rw [hlangs1, hl1] at hfin1
    cases hB : (!(g.foldl syncStep (initState doc0)).missing_views.isEmpty ||
        !(g.foldl syncStep (initState doc0)).missing_filters.isEmpty)
    · rw [hB] at hfin1
      simp only [Bool.false_and, if_false, Bool.false_eq_true] at hfin1
      simp only [Bool.false_and, Bool.false_eq_true, if_false]
      exact hfin1
    · rw [hB] at hfin1
      simp only [Bool.true_and] at hfin1
      simp only [Bool.true_and, Option.isSome_some, if_true, Option.getD_some]
      cases hD : doc0.language with
      | none =>
        rw [hD] at hfin1
        simp only [Option.isSome_none, Bool.false_eq_true, if_false] at hfin1
        rw [hfin1]
        exact insLang_self _ _ (List.mem_singleton_self l)
      | some L0 =>
        rw [hD] at hfin1
        simp only [Option.isSome_some, if_true, Option.getD_some] at hfin1
        rcases insLang_eq_singleton _ _ _ hfin1 with hnil | hone
        · rw [hnil]
          simp [insLang]
        · rw [hone]
          exact insLang_self _ _ (List.mem_singleton_self l)
  refine ⟨{ (g.foldl syncStep (initState d1)).doc with language := some l }, ?_, ?_⟩
  · have hok := processGroup_ok_of_singleton d1 g false l hfin2
    simpa using hok
  · apply docBEq_true_of
    · show (g.foldl syncStep (initState d1)).doc.docId = d1.docId
      rw [foldl_syncStep_docId]
      rfl
    · show some l = d1.language
      exact hRl.symm
    · apply ovEq_of_vget funcsBEq funcsBEq_refl
      · show ((g.foldl syncStep (initState d1)).doc.views).isSome = (d1.views).isSome
        cases hsv : d1.views with
        | none =>
          have h0 : (g.foldl syncStep (initState doc0)).doc.views = none := by
            rw [← hRv]; exact hsv
          have hnv := (foldl_views_none_elim g _ h0).2
          have h2 : (g.foldl syncStep (initState d1)).doc.views = (initState d1).doc.views :=
            foldl_syncStep_views_of_no_view g _ hnv
          rw [h2]
          show (d1.views).isSome = _
          rw [hsv]
        | some m =>
          have h2 : ((g.foldl syncStep (initState d1)).doc.views).isSome = true := by
            apply foldl_syncStep_views_isSome_mono
            show (d1.views).isSome = true
            rw [hsv]
            rfl
          rw [h2]
          rfl
      · intro k
        rw [foldl_syncStep_vget_views]
        cases hlv : lastView k g with
        | none => rfl
        | some v =>
          have hrun1 := foldl_syncStep_vget_views g (initState doc0) k
          rw [hlv] at hrun1
          show some (mkFuncs v) = vget d1.views k
          rw [hRv]
          exact hrun1.symm
    · apply ovEq_of_vget strEq strEq_refl
      · show ((g.foldl syncStep (initState d1)).doc.filters).isSome = (d1.filters).isSome
        cases hsf : d1.filters with
        | none =>
          have h0 : (g.foldl syncStep (initState doc0)).doc.filters = none := by
            rw [← hRf]; exact hsf
          have hnf := (foldl_filters_none_elim g _ h0).2
          have h2 : (g.foldl syncStep (initState d1)).doc.filters = (initState d1).doc.filters :=
            foldl_syncStep_filters_of_no_filter g _ hnf
          rw [h2]
          show (d1.filters).isSome = _
          rw [hsf]
        | some m =>
          have h2 : ((g.foldl syncStep (initState d1)).doc.filters).isSome = true := by
            apply foldl_syncStep_filters_isSome_mono
            show (d1.filters).isSome = true
            rw [hsf]
            rfl
          rw [h2]
          rfl
      · intro k
        rw [foldl_syncStep_vget_filters]
        cases hlf : lastFilter k g with
        | none => rfl
        | some v =>
          have hrun1 := foldl_syncStep_vget_filters g (initState doc0) k
          rw [hlf] at hrun1
          show some (v.filter_fun.getD "") = vget d1.filters k
          rw [hRf]
          exact hrun1.symm

theorem processGroup_stable_true (doc0 : DesignDoc) (g : List DesignDefinition)
    (hwf : DocWF doc0) (d1 : DesignDoc) (h1 : processGroup doc0 g true = Except.ok d1) :
    ∃ d2, processGroup d1 g true = Except.ok d2 ∧ docBEq d2 d1 = true := by
  obtain ⟨l, hfin1, hd1⟩ := processGroup_ok_elim _ _ _ _ h1
  have hd1' : d1 = { applyRemove (g.foldl syncStep (initState doc0)).doc
      (g.foldl syncStep (initState doc0)).missing_views
      (g.foldl syncStep (initState doc0)).missing_filters with language := some l } := by
    simpa using hd1
  have hRv : d1.views = (applyRemove (g.foldl syncStep (initState doc0)).doc
      (g.foldl syncStep (initState doc0)).missing_views
      (g.foldl syncStep (initState doc0)).missing_filters).views := by rw [hd1']
  have hRf : d1.filters = (applyRemove (g.foldl syncStep (initState doc0)).doc
      (g.foldl syncStep (initState doc0)).missing_views
      (g.foldl syncStep (initState doc0)).missing_filters).filters := by rw [hd1']
  have hRl : d1.language = some l := by rw [hd1']
  have hlangs1 : (g.foldl syncStep (initState doc0)).languages =
      g.foldl (fun s v => insLang s v.language) [] := foldl_syncStep_languages g _
  have hlangs2 : (g.foldl syncStep (initState d1)).languages =
      g.foldl (fun s v => insLang s v.language) [] := foldl_syncStep_languages g _
  have hwfd1 : DocWF d1 := processGroup_wf doc0 g true hwf d1 h1
  have hmv1 : (g.foldl syncStep (initState doc0)).missing_views =
      (akeys (doc0.views.getD [])).filter (fun k => !(touchedV g k)) :=
    foldl_missing_views_eq g doc0 hwf.1
  have hmv2 : (g.foldl syncStep (initState d1)).missing_views =
      (akeys (d1.views.getD [])).filter (fun k => !(touchedV g k)) :=
    foldl_missing_views_eq g d1 hwfd1.1
  have hmf1 : (g.foldl syncStep (initState doc0)).missing_filters =
      (akeys (doc0.filters.getD [])).filter (fun k => !(touchedF g k)) :=
    foldl_missing_filters_eq g doc0 hwf.2
  have hmf2 : (g.foldl syncStep (initState d1)).missing_filters =
      (akeys (d1.filters.getD [])).filter (fun k => !(touchedF g k)) :=
    foldl_missing_filters_eq g d1 hwfd1.2
  have hfin2 : finalLanguages d1 g true = [l] := by
    rw [finalLanguages_true, hlangs2]
    rw [finalLanguages_true, hlangs1] at hfin1
    exact hfin1
  refine ⟨{ applyRemove (g.foldl syncStep (initState d1)).doc
      (g.foldl syncStep (initState d1)).missing_views
      (g.foldl syncStep (initState d1)).missing_filters with language := some l }, ?_, ?_⟩
  · have hok := processGroup_ok_of_singleton d1 g true l hfin2
    simpa using hok
  · apply docBEq_true_of
    · show (applyRemove (g.foldl syncStep (initState d1)).doc
        (g.foldl syncStep (initState d1)).missing_views
        (g.foldl syncStep (initState d1)).missing_filters).docId = d1.docId
      rw [applyRemove_docId, foldl_syncStep_docId]
      rfl
    · show some l = d1.language
      exact hRl.symm
    · apply ovEq_of_vget funcsBEq funcsBEq_refl
      · show ((applyRemove (g.foldl syncStep (initState d1)).doc
          (g.foldl syncStep (initState d1)).missing_views
          (g.foldl syncStep (initState d1)).missing_filters).views).isSome = (d1.views).isSome
        cases hsv : (g.foldl syncStep (initState doc0)).doc.views with
        | none =>
          have hnv := (foldl_views_none_elim g _ hsv).2
          have hd1vnone : d1.views = none := by
            rw [hRv]
            simp [applyRemove, hsv]
          have h2 : (g.foldl syncStep (initState d1)).doc.views = (initState d1).doc.views :=
            foldl_syncStep_views_of_no_view g _ hnv
          rw [applyRemove_views_isSome, h2]
          rfl
        | some m =>
          have hd1some : (d1.views).isSome = true := by
            rw [hRv, applyRemove_views_isSome, hsv]
            rfl
          have h2 : ((g.foldl syncStep (initState d1)).doc.views).isSome = true :=
            foldl_syncStep_views_isSome_mono g _ hd1some
          rw [applyRemove_views_isSome, h2, hd1some]
      · intro k
        show vget (applyRemove (g.foldl syncStep (initState d1)).doc
          (g.foldl syncStep (initState d1)).missing_views
          (g.foldl syncStep (initState d1)).missing_filters).views k = vget d1.views k
        rw [vget_applyRemove_views]
        cases ht : touchedV g k with
        | true =>
          have hk2 : k ∉ (g.foldl syncStep (initState d1)).missing_views := by
            rw [hmv2]
            intro hmem
            have := (List.mem_filter.mp hmem).2
            rw [ht] at this
            cases this
          have hk1 : k ∉ (g.foldl syncStep (initState doc0)).missing_views := by
            rw [hmv1]
            intro hmem
            have := (List.mem_filter.mp hmem).2
            rw [ht] at this
            cases this
          have hsome : (lastView k g).isSome = true := ht
          obtain ⟨v, hv⟩ := Option.isSome_iff_exists.mp hsome
          have hrun2 := foldl_syncStep_vget_views g (initState d1) k
          rw [hv] at hrun2
          have hrun1 := foldl_syncStep_vget_views g (initState doc0) k
          rw [hv] at hrun1
          rw [if_neg hk2, hrun2, hRv, vget_applyRemove_views, if_neg hk1, hrun1]
        | false =>
          have hlv : lastView k g = none := lastView_eq_none_of_not_touched g k ht
          have hrun2 := foldl_syncStep_vget_views g (initState d1) k
          rw [hlv] at hrun2
          have hrun1 := foldl_syncStep_vget_views g (initState doc0) k
          rw [hlv] at hrun1
          have hnone : vget d1.views k = none := by
            rw [hRv, vget_applyRemove_views]
            by_cases hk1 : k ∈ (g.foldl syncStep (initState doc0)).missing_views
            · rw [if_pos hk1]
            · rw [if_neg hk1, hrun1]
              apply vget_eq_none_of_not_mem
              intro hmem
              apply hk1
              rw [hmv1]
              exact List.mem_filter.mpr ⟨hmem, by rw [ht]; rfl⟩
          have hk2 : k ∉ (g.foldl syncStep (initState d1)).missing_views := by
            rw [hmv2]
            intro hmem
            have hmem' := (List.mem_filter.mp hmem).1
            rw [mem_akeys_getD_iff, hnone] at hmem'
            cases hmem'
          rw [if_neg hk2, hrun2]
          rfl
    · apply ovEq_of_vget strEq strEq_refl
      · show ((applyRemove (g.foldl syncStep (initState d1)).doc
          (g.foldl syncStep (initState d1)).missing_views
          (g.foldl syncStep (initState d1)).missing_filters).filters).isSome = (d1.filters).isSome
        cases hsf : (g.foldl syncStep (initState doc0)).doc.filters with
        | none =>
          have hnf := (foldl_filters_none_elim g _ hsf).2
          have hd1fnone : d1.filters = none := by
            rw [hRf]
            simp [applyRemove, hsf]
          have h2 : (g.foldl syncStep (initState d1)).doc.filters = (initState d1).doc.filters :=
            foldl_syncStep_filters_of_no_filter g _ hnf
          rw [applyRemove_filters_isSome, h2]
          rfl
        | some m =>
          have hd1some : (d1.filters).isSome = true := by
            rw [hRf, applyRemove_filters_isSome, hsf]
            rfl
          have h2 : ((g.foldl syncStep (initState d1)).doc.filters).isSome = true :=
            foldl_syncStep_filters_isSome_mono g _ hd1some
          rw [applyRemove_filters_isSome, h2, hd1some]
      · intro k
        show vget (applyRemove (g.foldl syncStep (initState d1)).doc
          (g.foldl syncStep (initState d1)).missing_views
          (g.foldl syncStep (initState d1)).missing_filters).filters k = vget d1.filters k
        rw [vget_applyRemove_filters]
        cases ht : touchedF g k with
        | true =>
          have hk2 : k ∉ (g.foldl syncStep (initState d1)).missing_filters := by
            rw [hmf2]
            intro hmem
            have := (List.mem_filter.mp hmem).2
            rw [ht] at this
            cases this
          have hk1 : k ∉ (g.foldl syncStep (initState doc0)).missing_filters := by
            rw [hmf1]
            intro hmem
            have := (List.mem_filter.mp hmem).2
            rw [ht] at this
            cases this
          have hsome : (lastFilter k g).isSome = true := ht
          obtain ⟨v, hv⟩ := Option.isSome_iff_exists.mp hsome
          have hrun2 := foldl_syncStep_vget_filters g (initState d1) k
          rw [hv] at hrun2
          have hrun1 := foldl_syncStep_vget_filters g (initState doc0) k
          rw [hv] at hrun1
          rw [if_neg hk2, hrun2, hRf, vget_applyRemove_filters, if_neg hk1, hrun1]
        | false =>
          have hlf : lastFilter k g = none := lastFilter_eq_none_of_not_touched g k ht
          have hrun2 := foldl_syncStep_vget_filters g (initState d1) k
          rw [hlf] at hrun2
          have hrun1 := foldl_syncStep_vget_filters g (initState doc0) k
          rw [hlf] at hrun1
          have hnone : vget d1.filters k = none := by
            rw [hRf, vget_applyRemove_filters]
            by_cases hk1 : k ∈ (g.foldl syncStep (initState doc0)).missing_filters
            · rw [if_pos hk1]
            · rw [if_neg hk1, hrun1]
              apply vget_eq_none_of_not_mem
              intro hmem
              apply hk1
              rw [hmf1]
              exact List.mem_filter.mpr ⟨hmem, by rw [ht]; rfl⟩
          have hk2 : k ∉ (g.foldl syncStep (initState d1)).missing_filters := by
            rw [hmf2]
            intro hmem
            have hmem' := (List.mem_filter.mp hmem).1
            rw [mem_akeys_getD_iff, hnone] at hmem'
            cases hmem'
          rw [if_neg hk2, hrun2]
          rfl

theorem processGroup_stable (doc0 : DesignDoc) (g : List DesignDefinition) (rm : Bool)
    (hwf : DocWF doc0) (d1 : DesignDoc) (h1 : processGroup doc0 g rm = Except.ok d1) :
    ∃ d2, processGroup d1 g rm = Except.ok d2 ∧ docBEq d2 d1 = true := by
  cases rm with
  | false => exact processGroup_stable_false doc0 g hwf d1 h1
  | true => exact processGroup_stable_true doc0 g hwf d1 h1

/-! Lifting stability to the whole synchronization call. -/

theorem designId_inj (a b : String) (h : "_design/" ++ a = "_design/" ++ b) : a = b := by
  cases a with
  | mk da =>
    cases b with
    | mk db =>
      have hd : "_design/".data ++ da = "_design/".data ++ db := congrArg String.data h
      have hc := List.append_cancel_left hd
      rw [hc]

theorem syncGroups_char (db : Db) (rm : Bool) (hdb : DbWF db) :
    ∀ (gs : List (List DesignDefinition)), (gs.map groupDesign).Nodup →
    ∀ (ds : List DesignDoc), syncGroups db rm gs = Except.ok ds →
    (∀ d ∈ ds, ∃ g ∈ gs, d.docId = "_design/" ++ groupDesign g) ∧
    (∀ g ∈ gs, ∃ d1, processGroup (fetchDoc db (groupDesign g)) g rm = Except.ok d1 ∧
       writeLookup ds ("_design/" ++ groupDesign g) =
         (if docBEq d1 (fetchDoc db (groupDesign g)) then none else some d1)) := by
  intro gs
  induction gs with
  | nil =>
    intro _ ds h
    have hds : ds = [] := (Except.ok.inj h).symm
    subst hds
    exact ⟨by simp, by simp⟩
  | cons g gs ih =>
    intro hnd ds h
    simp only [syncGroups] at h
    cases hp : processGroup (fetchDoc db (groupDesign g)) g rm with
    | error e =>
      rw [hp] at h
      cases h
    | ok d1 =>
      rw [hp] at h
      cases hr : syncGroups db rm gs with
      | error e =>
        rw [hr] at h
        cases h
      | ok rest =>
        rw [hr] at h
        have hds : ds = (if docBEq d1 (fetchDoc db (groupDesign g)) then [] else [d1]) ++ rest :=
          (Except.ok.inj h).symm
        subst hds
        have hnd' : (gs.map groupDesign).Nodup := (List.nodup_cons.mp hnd).2
        have hout : groupDesign g ∉ gs.map groupDesign := (List.nodup_cons.mp hnd).1
        obtain ⟨hids', hchar'⟩ := ih hnd' rest hr
        have hd1id : d1.docId = "_design/" ++ groupDesign g := by
          rw [processGroup_docId _ _ _ _ hp]
          exact fetchDoc_docId db _ hdb
        have hrestne : ∀ d ∈ rest, d.docId ≠ "_design/" ++ groupDesign g := by
          intro d hd hcontra
          obtain ⟨g2, hg2, hid2⟩ := hids' d hd
          rw [hid2] at hcontra
          have : groupDesign g2 = groupDesign g := designId_inj _ _ hcontra
          exact hout (this ▸ List.mem_map_of_mem groupDesign hg2)
        constructor
        · intro d hd
          rcases List.mem_append.mp hd with hpre | hrest
          · by_cases hbeq : docBEq d1 (fetchDoc db (groupDesign g)) = true
            · rw [if_pos hbeq] at hpre
              cases hpre
            · rw [if_neg hbeq] at hpre
              rw [List.mem_singleton] at hpre
              subst hpre
              exact ⟨g, List.mem_cons_self g gs, hd1id⟩
          · obtain ⟨g2, hg2, hid2⟩ := hids' d hrest
            exact ⟨g2, List.mem_cons_of_mem g hg2, hid2⟩
        · intro g2 hg2
          rcases List.mem_cons.mp hg2 with rfl | hg2'
          · refine ⟨d1, hp, ?_⟩
            rw [writeLookup_append]
            rw [writeLookup_eq_none rest _ hrestne]
            by_cases hbeq : docBEq d1 (fetchDoc db (groupDesign g2)) = true
            · rw [if_pos hbeq, if_pos hbeq]
              rfl
            · rw [if_neg hbeq, if_neg hbeq]
              simp only [writeLookup]
              rw [if_pos hd1id]
          · obtain ⟨d2, hok2, hwl2⟩ := hchar' g2 hg2'
            refine ⟨d2, hok2, ?_⟩
            rw [writeLookup_append]
            have hkne : "_design/" ++ groupDesign g2 ≠ "_design/" ++ groupDesign g := by
              intro hcontra
              have : groupDesign g2 = groupDesign g := designId_inj _ _ hcontra
              exact hout (this ▸ List.mem_map_of_mem groupDesign hg2')
            have hpre : writeLookup
                (if docBEq d1 (fetchDoc db (groupDesign g)) then [] else [d1])
                ("_design/" ++ groupDesign g2) = none := by
              by_cases hbeq : docBEq d1 (fetchDoc db (groupDesign g)) = true
              · rw [if_pos hbeq]
                rfl
              · rw [if_neg hbeq]
                simp only [writeLookup]
                rw [if_neg (by rw [hd1id]; exact fun e => hkne e.symm)]
            rw [hwl2]
            by_cases hbeq2 : docBEq d2 (fetchDoc db (groupDesign g2)) = true
            · rw [if_pos hbeq2]
              rw [if_pos hbeq2] at hwl2
              exact hpre
            · rw [if_neg hbeq2]

theorem syncGroups_all_stable (db2 : Db) (rm : Bool) :
    ∀ (gs : List (List DesignDefinition)),
    (∀ g ∈ gs, ∃ d, processGroup (fetchDoc db2 (groupDesign g)) g rm = Except.ok d ∧
        docBEq d (fetchDoc db2 (groupDesign g)) = true) →
    syncGroups db2 rm gs = Except.ok [] := by
  intro gs
  induction gs with
  | nil => intro _; rfl
  | cons g gs ih =>
    intro h
    obtain ⟨d, hok, hbeq⟩ := h g (List.mem_cons_self g gs)
    have hrest := ih (fun g2 hg2 => h g2 (List.mem_cons_of_mem g hg2))
    simp only [syncGroups]
    rw [hok, hrest]
    simp [hbeq]

theorem syncMany_second_run (db : Db) (defs : List DesignDefinition) (rm : Bool)
    (hdb : DbWF db) (hnd : ((groupRuns defs).map groupDesign).Nodup)
    (docs1 : List DesignDoc) (db1 : Db)
    (h1 : syncMany db defs rm = Except.ok (docs1, db1)) :
    syncMany db1 defs rm = Except.ok ([], db1) := by
  simp only [syncMany] at h1
  cases hs : syncGroups db rm (groupRuns defs) with
  | error e =>
    rw [hs] at h1
    cases h1
  | ok ds =>
    rw [hs] at h1
    have hpair := Except.ok.inj h1
    have hdocs : docs1 = ds := (Prod.mk.injEq _ _ _ _).mp hpair.symm |>.1
    have hdb1 : db1 = dbUpdate db ds := (Prod.mk.injEq _ _ _ _).mp hpair.symm |>.2
    subst hdocs
    subst hdb1
    obtain ⟨hids, hchar⟩ := syncGroups_char db rm hdb (groupRuns defs) hnd docs1 hs
    have hfetch : ∀ g ∈ groupRuns defs,
        fetchDoc (dbUpdate db docs1) (groupDesign g) =
          (if (writeLookup docs1 ("_design/" ++ groupDesign g)).isSome then
            (writeLookup docs1 ("_design/" ++ groupDesign g)).getD (skeleton (groupDesign g))
          else fetchDoc db (groupDesign g)) := by
      intro g hg
      unfold fetchDoc
      rw [aget_dbUpdate]
      cases hw : writeLookup docs1 ("_design/" ++ groupDesign g)
      · simp
      · simp
    have hstable : ∀ g ∈ groupRuns defs,
        ∃ d, processGroup (fetchDoc (dbUpdate db docs1) (groupDesign g)) g rm = Except.ok d ∧
          docBEq d (fetchDoc (dbUpdate db docs1) (groupDesign g)) = true := by
      intro g hg
      obtain ⟨d1, hok1, hwl⟩ := hchar g hg
      rw [hfetch g hg]
      by_cases hbeq : docBEq d1 (fetchDoc db (groupDesign g)) = true
      · rw [if_pos hbeq] at hwl
        rw [hwl]
        simp only [Option.isSome_none, Bool.false_eq_true, if_false]
        exact ⟨d1, hok1, hbeq⟩
      · rw [if_neg hbeq] at hwl
        rw [hwl]
        simp only [Option.isSome_some, if_true, Option.getD_some]
        obtain ⟨d2, hok2, hbeq2⟩ :=
          processGroup_stable (fetchDoc db (groupDesign g)) g rm
            (fetchDoc_wf db (groupDesign g) hdb) d1 hok1
        exact ⟨d2, hok2, hbeq2⟩
    have hsg := syncGroups_all_stable (dbUpdate db docs1) rm (groupRuns defs) hstable
    simp only [syncMany]
    rw [hsg]
    rfl

/-! Equivalence of the code normalization with its specification rendering. -/

theorem dropWhile_append_nil {α : Type} (p : α → Bool) (l1 l2 : List α)
    (h : l1.dropWhile p = []) : (l1 ++ l2).dropWhile p = l2.dropWhile p := by
  induction l1 with
  | nil => rfl
  | cons a l ih =>
    by_cases hp : p a = true
    · rw [List.cons_append, List.dropWhile_cons, if_pos hp]
      apply ih
      rw [List.dropWhile_cons, if_pos hp] at h
      exact h
    · rw [List.dropWhile_cons, if_neg hp] at h
      cases h

theorem dropWhile_append_cons {α : Type} (p : α → Bool) (l1 l2 : List α) (x : α) (xs : List α)
    (h : l1.dropWhile p = x :: xs) : (l1 ++ l2).dropWhile p = (x :: xs) ++ l2 := by
  induction l1 with
  | nil => cases h
  | cons a l ih =>
    by_cases hp : p a = true
    · rw [List.cons_append, List.dropWhile_cons, if_pos hp]
      apply ih
      rw [List.dropWhile_cons, if_pos hp] at h
      exact h
    · rw [List.dropWhile_cons, if_neg hp] at h
      rw [List.cons_append, List.dropWhile_cons, if_neg hp]
      rw [← h, List.cons_append]

theorem specDropLeadNLs_eq (l : List Char) :
    specDropLeadNLs l = l.dropWhile (fun c => c = '\n') := by
  induction l with
  | nil => rfl
  | cons c rest ih =>
    by_cases h : c = '\n' <;> simp [specDropLeadNLs, List.dropWhile_cons, h, ih]

theorem specRstrip_eq (l : List Char) :
    specRstrip l = (l.reverse.dropWhile isPyWs).reverse := by
  induction l with
  | nil => rfl
  | cons c rest ih =>
    show (match specRstrip rest with
      | [] => if isPyWs c then [] else [c]
      | r => c :: r) = _
    cases hs : specRstrip rest with
    | nil =>
      have hdw : rest.reverse.dropWhile isPyWs = [] := by
        rw [hs] at ih
        exact List.reverse_eq_nil_iff.mp ih.symm
      rw [List.reverse_cons, dropWhile_append_nil isPyWs _ _ hdw]
      by_cases hc : isPyWs c = true <;> simp [List.dropWhile_cons, hc]
    | cons x xs =>
      have hdw : rest.reverse.dropWhile isPyWs = (x :: xs).reverse := by
        rw [hs] at ih
        have := congrArg List.reverse ih
        rw [List.reverse_reverse] at this
        exact this.symm
      rcases hrev : (x :: xs).reverse with _ | ⟨y, ys⟩
      · exfalso
        have := congrArg List.length hrev
        simp at this
      · rw [List.reverse_cons, dropWhile_append_cons isPyWs _ _ y ys (by rw [hdw, hrev])]
        rw [← hrev]
        simp

theorem lcp_of_leads (m : List Char) : ∀ (i : List Char), leadsWith m i = true →
    lcpChars m i = m := by
  induction m with
  | nil =>
    intro i _
    cases i <;> rfl
  | cons a as ih =>
    intro i h
    cases i with
    | nil => cases h
    | cons b bs =>
      simp only [leadsWith, Bool.and_eq_true, decide_eq_true_eq] at h
      obtain ⟨rfl, h2⟩ := h
      simp [lcpChars, ih bs h2]

theorem lcp_of_leads_rev (i : List Char) : ∀ (m : List Char), leadsWith i m = true →
    lcpChars m i = i := by
  induction i with
  | nil =>
    intro m _
    cases m <;> rfl
  | cons b bs ih =>
    intro m h
    cases m with
    | nil => cases h
    | cons a as =>
      simp only [leadsWith, Bool.and_eq_true, decide_eq_true_eq] at h
      obtain ⟨he, h2⟩ := h
      subst he
      simp [lcpChars, ih as h2]

theorem marginStep_eq_lcp (m i : List Char) : marginStep m i = lcpChars m i := by
  unfold marginStep
  by_cases h1 : leadsWith m i = true
  · rw [if_pos h1, lcp_of_leads m i h1]
  · rw [if_neg h1]
    by_cases h2 : leadsWith i m = true
    · rw [if_pos h2, lcp_of_leads_rev i m h2]
    · rw [if_neg h2]

theorem foldl_marginStep_eq (is : List (List Char)) (init : List Char) :
    is.foldl marginStep init = is.foldl lcpChars init := by
  induction is generalizing init with
  | nil => rfl
  | cons i is ih => rw [List.foldl_cons, List.foldl_cons, marginStep_eq_lcp, ih]

theorem dedent_eq_specDedent (s : String) : dedent s = specDedent s := by
  simp only [dedent, specDedent]
  have hm : dedentMargin
      ((((splitNL s).map blankWsOnly).filter (fun l => !(decide (l = "")))).map lineIndent) =
      (match (((splitNL s).map blankWsOnly).filter
          (fun l => !(decide (l = "")))).map lineIndent with
       | [] => ([] : List Char)
       | i :: is => is.foldl lcpChars i) := by
    unfold dedentMargin
    cases (((splitNL s).map blankWsOnly).filter (fun l => !(decide (l = "")))).map lineIndent with
    | nil => rfl
    | cons i is => exact foldl_marginStep_eq is i
  rw [hm]

theorem lstripNL_eq_spec (s : String) : lstripNL s = String.mk (specDropLeadNLs s.data) := by
  unfold lstripNL
  rw [specDropLeadNLs_eq]

theorem pyRstrip_eq_spec (s : String) : pyRstrip s = String.mk (specRstrip s.data) := by
  unfold pyRstrip
  rw [specRstrip_eq]

theorem normalizeOpt_eq_spec (a : FunArg) :
    normalizeOpt (some a) = some (specNormalizeAmended a) := by
  cases a with
  | str s =>
    show (if s = "" then some s else some (dedent (lstripNL s))) =
      some (if s = "" then s else specDedent (String.mk (specDropLeadNLs s.data)))
    by_cases h : s = ""
    · rw [if_pos h, if_pos h]
    · rw [if_neg h, if_neg h, lstripNL_eq_spec, dedent_eq_specDedent]
  | func src =>
    show (if stripDecorators (pyRstrip src) = "" then some (stripDecorators (pyRstrip src))
        else some (dedent (lstripNL (stripDecorators (pyRstrip src))))) =
      some (if stripDecorators (String.mk (specRstrip src.data)) = ""
        then stripDecorators (String.mk (specRstrip src.data))
        else specDedent (String.mk
          (specDropLeadNLs (stripDecorators (String.mk (specRstrip src.data))).data)))
    rw [pyRstrip_eq_spec]
    by_cases h : stripDecorators (String.mk (specRstrip src.data)) = ""
    · rw [if_pos h, if_pos h]
    · rw [if_neg h, if_neg h, lstripNL_eq_spec, dedent_eq_specDedent]

theorem normalizeOpt_map_spec (o : Option FunArg) :
    normalizeOpt o = o.map specNormalizeAmended := by
  cases o with
  | none => rfl
  | some a =>
    rw [show (some a).map specNormalizeAmended = some (specNormalizeAmended a) from rfl]
    exact normalizeOpt_eq_spec a

/-! Merging of call-time options. -/

theorem aget_dictUpdate {α : Type} (upd : List (String × α))
    (hnd : (upd.map Prod.fst).Nodup) (base : List (String × α)) (k : String) :
    aget (dictUpdate base upd) k =
      match aget upd k with
      | some v => some v
      | none => aget base k := by
  induction upd generalizing base with
  | nil => rfl
  | cons p rest ih =>
    rw [show dictUpdate base (p :: rest) = dictUpdate (aset base p.1 p.2) rest from rfl]
    rw [ih (List.nodup_cons.mp hnd).2]
    by_cases hk : p.1 = k
    · subst hk
      have hnone : aget rest p.1 = none := by
        apply aget_eq_none_of_not_mem
        exact (List.nodup_cons.mp hnd).1
      rw [hnone, show aget (p :: rest) p.1 = some p.2 from by simp [aget]]
      rw [aget_aset]
      simp
    · rw [show aget (p :: rest) k = aget rest k from by simp [aget, hk]]
      cases hr : aget rest k with
      | none =>
        rw [aget_aset, if_neg hk]
      | some v => rfl

/-! Error propagation through the group loop. -/

theorem syncGroups_error_of_conflict (db : Db) (rm : Bool) :
    ∀ (gs : List (List DesignDefinition)),
    (∃ g ∈ gs, 1 < (finalLanguages (fetchDoc db (groupDesign g)) g rm).length) →
    ∃ e, syncGroups db rm gs = Except.error e := by
  intro gs
  induction gs with
  | nil =>
    rintro ⟨g, hg, _⟩
    cases hg
  | cons g gs ih =>
    rintro ⟨g0, hg0, hc⟩
    cases hp : processGroup (fetchDoc db (groupDesign g)) g rm with
    | error e =>
      refine ⟨e, ?_⟩
      simp only [syncGroups]
      rw [hp]
    | ok d =>
      rcases List.mem_cons.mp hg0 with rfl | hg0'
      · exfalso
        rw [processGroup_error_of_conflict _ _ _ hc] at hp
        cases hp
      · obtain ⟨e, herr⟩ := ih ⟨g0, hg0', hc⟩
        refine ⟨e, ?_⟩
        simp only [syncGroups]
        rw [hp, herr]

theorem groupRuns_pair (d1 d2 : DesignDefinition) (h : d1.design = d2.design) :
    groupRuns [d1, d2] = [[d1, d2]] := by
  simp [groupRuns, h]

theorem pair_conflict (doc0 : DesignDoc) (d1 d2 : DesignDefinition)
    (hne : d1.language ≠ d2.language) :
    1 < (finalLanguages doc0 [d1, d2] false).length := by
  have hlangs : ([d1, d2].foldl syncStep (initState doc0)).languages =
      insLang (insLang [] d1.language) d2.language := foldl_syncStep_languages [d1, d2] _
  have hbase : insLang (insLang [] d1.language) d2.language =
      [d1.language, d2.language] := by
    have h1 : insLang [] d1.language = [d1.language] := by simp [insLang]
    rw [h1]
    have h2 : ¬ d2.language = d1.language := fun e => hne e.symm
    simp [insLang, h2]
  have hlen : ([d1, d2].foldl syncStep (initState doc0)).languages.length = 2 := by
    rw [hlangs, hbase]
    rfl
  rw [finalLanguages_false]
  split
  · have hle := length_le_insLang ([d1, d2].foldl syncStep (initState doc0)).languages
      (([d1, d2].foldl syncStep (initState doc0)).doc.language.getD "")
    omega
  · omega

/-! Splitting the contiguous grouping at a design break. -/

theorem groupRuns_cons_eq (v : DesignDefinition) (l : List DesignDefinition) :
    groupRuns (v :: l) =
      match groupRuns l with
      | (w :: g) :: gs =>
        if v.design = w.design then (v :: w :: g) :: gs else [v] :: (w :: g) :: gs
      | gs => [v] :: gs := rfl

theorem groupRuns_append_break (c : DesignDefinition) (zs : List DesignDefinition) :
    ∀ (xs : List DesignDefinition),
    (∀ x, xs.getLast? = some x → x.design ≠ c.design) →
    groupRuns (xs ++ c :: zs) = groupRuns xs ++ groupRuns (c :: zs) := by
  intro xs
  induction xs with
  | nil => intro _; rfl
  | cons a xs ih =>
    intro h
    cases xs with
    | nil =>
      obtain ⟨g, gs, hg⟩ := groupRuns_cons_head c zs
      have hne : a.design ≠ c.design := h a rfl
      rw [List.cons_append, List.nil_append]
      rw [groupRuns_cons_eq a (c :: zs), hg]
      show (if a.design = c.design then (a :: c :: g) :: gs else [a] :: (c :: g) :: gs) = _
      rw [if_neg hne, ← hg]
      rfl
    | cons b xs' =>
      have hlast : ∀ x, (b :: xs').getLast? = some x → x.design ≠ c.design := by
        intro x hx
        apply h x
        rw [List.getLast?_cons_cons]
        exact hx
      have hrec := ih hlast
      obtain ⟨g', gs', hg'⟩ := groupRuns_cons_head b xs'
      rw [List.cons_append]
      have hmid : groupRuns ((b :: xs') ++ c :: zs) =
          (b :: g') :: (gs' ++ groupRuns (c :: zs)) := by
        rw [hrec, hg']
        rfl
      by_cases hd : a.design = b.design
      · rw [groupRuns_cons_eq a ((b :: xs') ++ c :: zs), hmid]
        show (if a.design = b.design then (a :: b :: g') :: (gs' ++ groupRuns (c :: zs))
          else [a] :: (b :: g') :: (gs' ++ groupRuns (c :: zs))) = _
        rw [if_pos hd]
        rw [groupRuns_cons_eq a (b :: xs'), hg']
        show _ = (if a.design = b.design then (a :: b :: g') :: gs'
          else [a] :: (b :: g') :: gs') ++ groupRuns (c :: zs)
        rw [if_pos hd]
        rfl
      · rw [groupRuns_cons_eq a ((b :: xs') ++ c :: zs), hmid]
        show (if a.design = b.design then (a :: b :: g') :: (gs' ++ groupRuns (c :: zs))
          else [a] :: (b :: g') :: (gs' ++ groupRuns (c :: zs))) = _
        rw [if_neg hd]
        rw [groupRuns_cons_eq a (b :: xs'), hg']
        show _ = (if a.design = b.design then (a :: b :: g') :: gs'
          else [a] :: (b :: g') :: gs') ++ groupRuns (c :: zs)
        rw [if_neg hd]
        rfl

theorem getLast?_append_singleton {α : Type} (l : List α) (a : α) :
    (l ++ [a]).getLast? = some a := by
  induction l with
  | nil => rfl
  | cons b l ih =>
    rw [List.cons_append]
    cases hl : l ++ [a] with
    | nil =>
      exfalso
      have := congrArg List.length hl
      simp at this
    | cons y ys =>
      rw [List.getLast?_cons_cons, ← hl, ih]

/-! The claims. -/

/-- Claim C1: in `sync_many`, whenever the accumulated language set of one
design-document group holds more than one distinct language, the call fails
with the raised conflict error rather than silently picking one language; in
particular, two definitions for different views of the same design document
with different `language` values and `remove_missing = false` make the
synchronization fail. -/
theorem claim_C1 :
    (∀ (db : Db) (defs : List DesignDefinition) (rm : Bool),
      (∃ g ∈ groupRuns defs,
        1 < (finalLanguages (fetchDoc db (groupDesign g)) g rm).length) →
      ∃ e, syncMany db defs rm = Except.error e) ∧
    (∀ (db : Db) (d1 d2 : DesignDefinition),
      d1.design = d2.design → d1.name ≠ d2.name →
      truthy d1.filter_fun = false → truthy d2.filter_fun = false →
      d1.language ≠ d2.language →
      ∃ e, syncMany db [d1, d2] false = Except.error e) := by
  constructor
  · intro db defs rm hconf
    obtain ⟨e, herr⟩ := syncGroups_error_of_conflict db rm (groupRuns defs) hconf
    refine ⟨e, ?_⟩
    simp only [syncMany]
    rw [herr]
  · intro db d1 d2 hdes _ _ _ hlang
    have hg : groupRuns [d1, d2] = [[d1, d2]] := groupRuns_pair d1 d2 hdes
    have hc : 1 < (finalLanguages (fetchDoc db (groupDesign [d1, d2])) [d1, d2] false).length :=
      pair_conflict _ d1 d2 hlang
    obtain ⟨e, herr⟩ := syncGroups_error_of_conflict db false (groupRuns [d1, d2])
      ⟨[d1, d2], by rw [hg]; exact List.mem_singleton_self _, hc⟩
    refine ⟨e, ?_⟩
    simp only [syncMany]
    rw [herr]

theorem claim_C1_witness :
    ∃ e, syncMany [] [c1Js, c1Py] false = Except.error e :=
  claim_C1.2 [] c1Js c1Py rfl (by decide) rfl rfl (by decide)

/-- Claim C2: in `sync_many`, the `language` field of the stored document is part of
the accumulated language set exactly when removal of stale entries was not
requested, at least one removal candidate remains after the loop, and the
fetched document has a `language` field; languages of the processed
definitions are always present, and with `remove_missing = true` the stored
language is never added. -/
theorem claim_C2 (doc0 : DesignDoc) (g : List DesignDefinition) (rm : Bool) (x : String) :
    x ∈ finalLanguages doc0 g rm ↔
      (∃ v ∈ g, v.language = x) ∨
      (rm = false ∧
        ((g.foldl syncStep (initState doc0)).missing_views ≠ [] ∨
         (g.foldl syncStep (initState doc0)).missing_filters ≠ []) ∧
        doc0.language = some x) :=
  mem_finalLanguages doc0 g rm x

/-- Claim C3, counterexample: with definitions `[cexD1, cexE, cexD2]`, where
the two definitions for design document `d` are separated by one for design
document `e`, the second identical `sync_many` call against the state
produced by the first call submits one document, not zero: the two
non-adjacent groups for `d` each start from the same original state, so the
last bulk-updated version lacks the view written by the first group and the second run
detects a difference again. -/
theorem claim_C3_counterexample :
    run2Writes [] [cexD1, cexE, cexD2] false = some 1 := by
  rfl

/-- Claim C3 (amended): `sync_many` is idempotent with respect to writes
provided every design-document name occupies a single contiguous run of the
definition list (the contiguous grouping yields pairwise distinct design
names) and the database state is well-formed: after a successful first call,
running the same call against the produced state submits zero documents in
its bulk update and leaves the state unchanged. -/
theorem claim_C3 (db : Db) (defs : List DesignDefinition) (rm : Bool)
    (hdb : DbWF db) (hnd : ((groupRuns defs).map groupDesign).Nodup)
    (docs1 : List DesignDoc) (db1 : Db)
    (h1 : syncMany db defs rm = Except.ok (docs1, db1)) :
    syncMany db1 defs rm = Except.ok ([], db1) :=
  syncMany_second_run db defs rm hdb hnd docs1 db1 h1

theorem claim_C3_witness :
    syncMany [("_design/d", c3W1), ("_design/e", c3W2)] [cexD1, cexE] false =
      Except.ok ([], [("_design/d", c3W1), ("_design/e", c3W2)]) :=
  claim_C3 [] [cexD1, cexE] false
    (fun p hp => absurd hp (List.not_mem_nil p)) (by decide)
    [c3W1, c3W2] [("_design/d", c3W1), ("_design/e", c3W2)] (by rfl)

/-- Claim C4: for a design document with existing views `a` and `b` (holding
arbitrary function bundles) and `sync_many` called with only a definition for
`a`: with `remove_missing = true` the resulting `views` mapping holds only
the updated `a`; with `remove_missing = false` it holds the updated `a` and
the untouched `b`. -/
theorem claim_C4 : ∀ (fx fy : Funcs),
    syncMany [("_design/t", c4Doc fx fy)] [c4Def] true =
      Except.ok ([c4Out1], [("_design/t", c4Out1)]) ∧
    syncMany [("_design/t", c4Doc fx fy)] [c4Def] false =
      Except.ok ([c4Out2 fy], [("_design/t", c4Out2 fy)]) :=
  fun _ _ => ⟨rfl, rfl⟩

/-- Claim C5, counterexample: the body `"\n\nx"` (two leading newlines) is
stored as `"x"` because `lstrip` removes every leading newline, while the
normalization worded by the claim (a single leading newline stripped, then the common
leading whitespace of all lines removed) yields `"\nx"`. -/
theorem claim_C5_counterexample :
    DesignDefinition.init "d" "n" (some (FunArg.str "\n\nx")) none "javascript" none none =
      Except.ok ⟨"d", "n", some "x", none, none, "javascript", none⟩ ∧
    specNormalizeClaim (FunArg.str "\n\nx") = "\nx" ∧
    some "x" ≠ some (specNormalizeClaim (FunArg.str "\n\nx")) :=
  ⟨rfl, rfl, by decide⟩

/-- Claim C5 (amended): every stored body is the input normalized as follows:
the literal source text of a function first has all trailing whitespace stripped
and then its leading decorator lines removed; then any non-empty body has all
leading newline characters stripped and is dedented with textwrap semantics
(whitespace-only lines are blanked and the margin is the longest common
prefix of the indents of the non-blank lines); an empty body is stored
as-is. -/
theorem claim_C5 (design name : String) (m r : Option FunArg) (lang : String)
    (opts : Option (List (String × String))) (f : Option FunArg)
    (h : ¬(m = none ∧ f = none)) :
    ∃ d, DesignDefinition.init design name m r lang opts f = Except.ok d ∧
      d.map_fun = m.map specNormalizeAmended ∧
      d.reduce_fun = r.map specNormalizeAmended ∧
      d.filter_fun = f.map specNormalizeAmended := by
  simp only [DesignDefinition.init]
  rw [if_neg h]
  refine ⟨_, rfl, ?_, ?_, ?_⟩ <;> exact normalizeOpt_map_spec _

theorem claim_C5_witness :
    ∃ d, DesignDefinition.init "d" "n" (some (FunArg.str "  a\n  b")) none "javascript"
        none none = Except.ok d ∧
      d.map_fun = (some (FunArg.str "  a\n  b")).map specNormalizeAmended ∧
      d.reduce_fun = (none : Option FunArg).map specNormalizeAmended ∧
      d.filter_fun = (none : Option FunArg).map specNormalizeAmended :=
  claim_C5 "d" "n" (some (FunArg.str "  a\n  b")) none "javascript" none none (by simp)

/-- Claim C6: a view definition invoked as a callable merges its stored
defaults with the call-time options, call-time options winning on key
collision; the stored wrapper is injected under the `wrapper` key only when
the caller did not supply one; and the view operation of the database handle is
called with the path `design/name`.  The scenario instance: defaults
`limit = 10` with call-time `limit = 5` yields an effective `limit = 5`. -/
theorem claim_C6 :
    (∀ (V : Type) (vd : ViewDefinition V) (opts : List (String × V)),
      (opts.map Prod.fst).Nodup →
      (viewCall vd opts).1 = vd.design ++ "/" ++ vd.name ∧
      (∀ k v, aget opts k = some v → aget (viewCall vd opts).2 k = some v) ∧
      (∀ k, aget opts k = none → k ≠ "wrapper" →
        aget (viewCall vd opts).2 k = aget vd.defaults k) ∧
      (aget opts "wrapper" = none →
        aget (viewCall vd opts).2 "wrapper" =
          some ((aget vd.defaults "wrapper").getD vd.wrapper))) ∧
    (∀ (vd : ViewDefinition Nat), vd.defaults = [("limit", 10)] →
      aget (viewCall vd [("limit", 5)]).2 "limit" = some 5) := by
  constructor
  · intro V vd opts hnd
    refine ⟨rfl, ?_, ?_, ?_⟩
    · intro k v hk
      have hm : aget (dictUpdate vd.defaults opts) k = some v := by
        rw [aget_dictUpdate opts hnd, hk]
      show aget (if (aget (dictUpdate vd.defaults opts) "wrapper").isSome then
          dictUpdate vd.defaults opts
        else aset (dictUpdate vd.defaults opts) "wrapper" vd.wrapper) k = some v
      by_cases hw : (aget (dictUpdate vd.defaults opts) "wrapper").isSome = true
      · rw [if_pos hw]
        exact hm
      · rw [if_neg hw, aget_aset]
        by_cases hkw : "wrapper" = k
        · exfalso
          apply hw
          rw [← hkw] at hm
          rw [hm]
          rfl
        · rw [if_neg hkw]
          exact hm
    · intro k hk hkw
      have hm : aget (dictUpdate vd.defaults opts) k = aget vd.defaults k := by
        rw [aget_dictUpdate opts hnd, hk]
      show aget (if (aget (dictUpdate vd.defaults opts) "wrapper").isSome then
          dictUpdate vd.defaults opts
        else aset (dictUpdate vd.defaults opts) "wrapper" vd.wrapper) k = aget vd.defaults k
      by_cases hw : (aget (dictUpdate vd.defaults opts) "wrapper").isSome = true
      · rw [if_pos hw]
        exact hm
      · rw [if_neg hw, aget_aset, if_neg (fun e => hkw e.symm)]
        exact hm
    · intro hk
      have hm : aget (dictUpdate vd.defaults opts) "wrapper" = aget vd.defaults "wrapper" := by
        rw [aget_dictUpdate opts hnd, hk]
      show aget (if (aget (dictUpdate vd.defaults opts) "wrapper").isSome then
          dictUpdate vd.defaults opts
        else aset (dictUpdate vd.defaults opts) "wrapper" vd.wrapper) "wrapper" =
          some ((aget vd.defaults "wrapper").getD vd.wrapper)
      by_cases hw : (aget (dictUpdate vd.defaults opts) "wrapper").isSome = true
      · rw [if_pos hw]
        rw [hm] at hw ⊢
        obtain ⟨w, hww⟩ := Option.isSome_iff_exists.mp hw
        rw [hww]
        rfl
      · rw [if_neg hw, aget_aset, if_pos rfl]
        rw [hm] at hw
        have hnone : aget vd.defaults "wrapper" = none :=
          Option.not_isSome_iff_eq_none.mp hw
        rw [hnone]
        rfl
  · intro vd hdef
    simp [viewCall, dictUpdate, hdef, aset, aget]

theorem claim_C6_witness :
    aget (viewCall (⟨"des", "v", [("limit", 10)], 0⟩ : ViewDefinition Nat)
      [("limit", 5)]).2 "limit" = some 5 :=
  claim_C6.2 ⟨"des", "v", [("limit", 10)], 0⟩ rfl

/-- Claim C7: construction with neither a map body nor a filter body fails
with the assertion error; construction with at least one of the two present
returns a definition and does not raise. -/
theorem claim_C7 (design name : String) (m r f : Option FunArg) (lang : String)
    (opts : Option (List (String × String))) :
    (m = none ∧ f = none →
      DesignDefinition.init design name m r lang opts f = Except.error "AssertionError") ∧
    (¬(m = none ∧ f = none) →
      ∃ d, DesignDefinition.init design name m r lang opts f = Except.ok d) := by
  constructor
  · intro h
    simp only [DesignDefinition.init]
    rw [if_pos h]
  · intro h
    simp only [DesignDefinition.init]
    rw [if_neg h]
    exact ⟨_, rfl⟩

theorem claim_C7_witness :
    DesignDefinition.init "d" "n" none none "javascript" none none =
      Except.error "AssertionError" ∧
    ∃ d, DesignDefinition.init "d" "n" (some (FunArg.str "m")) none "javascript" none none =
      Except.ok d :=
  ⟨(claim_C7 "d" "n" none none none "javascript" none).1 ⟨rfl, rfl⟩,
   (claim_C7 "d" "n" (some (FunArg.str "m")) none none "javascript" none).2 (by simp)⟩

/-- Claim C8, counterexample: a definition carrying both a truthy map body
and a truthy filter body is written into the `filters` section (its `views`
section stays untouched and its map bundle is discarded), contradicting the
claim that a definition with a map body present is never written into
`filters`. -/
theorem claim_C8_counterexample :
    truthy cexBoth.map_fun = true ∧
    syncMany [] [cexBoth] false =
      Except.ok ([⟨"_design/d", some "javascript", none, some [("n", "f")]⟩],
        [("_design/d", ⟨"_design/d", some "javascript", none, some [("n", "f")]⟩)]) :=
  ⟨rfl, rfl⟩

/-- Claim C8 (amended): in every loop iteration of `sync_many`, a definition
with a truthy filter body is written only into the `filters` section (even
when a map body is also present), and a definition without a truthy filter
body is written only into the `views` section; exactly one of the two
sections receives the entry of a definition. -/
theorem claim_C8 (st : LoopState) (v : DesignDefinition) :
    (truthy v.filter_fun = true →
      (syncStep st v).doc.views = st.doc.views ∧
      (syncStep st v).doc.filters =
        some (aset (st.doc.filters.getD []) v.name (v.filter_fun.getD ""))) ∧
    (truthy v.filter_fun = false →
      (syncStep st v).doc.filters = st.doc.filters ∧
      (syncStep st v).doc.views =
        some (aset (st.doc.views.getD []) v.name (mkFuncs v))) := by
  constructor <;> intro h <;> constructor <;> simp [syncStep, h]

theorem claim_C8_witness :
    (syncStep (initState (skeleton "d")) cexBoth).doc.views =
      (initState (skeleton "d")).doc.views ∧
    (syncStep (initState (skeleton "d")) cexBoth).doc.filters =
      some (aset ((initState (skeleton "d")).doc.filters.getD []) cexBoth.name
        (cexBoth.filter_fun.getD "")) :=
  (claim_C8 (initState (skeleton "d")) cexBoth).1 rfl

/-- Claim C9: `sync_many` groups the definition sequence into maximal
contiguous runs of equal design-document names: the groups concatenate back
to the input, every group is a non-empty run of a single design name,
adjacent groups carry different design names, and a definition separated from
an earlier definition of the same design by one of a different design starts
a fresh group; each group is processed with its own fetch and its own
change-detection snapshot of the fetched document. -/
theorem claim_C9 (l : List DesignDefinition) :
    (groupRuns l).flatten = l ∧
    (∀ g ∈ groupRuns l, g ≠ [] ∧ ∀ v ∈ g, v.design = groupDesign g) ∧
    List.Chain' (fun a b => groupDesign a ≠ groupDesign b) (groupRuns l) ∧
    (∀ (xs zs : List DesignDefinition) (a c b : DesignDefinition),
      a.design = b.design → c.design ≠ a.design →
      groupRuns (xs ++ a :: c :: b :: zs) =
        groupRuns (xs ++ [a]) ++ groupRuns (c :: b :: zs) ∧
      groupRuns (c :: b :: zs) = [c] :: groupRuns (b :: zs)) ∧
    (∀ (db : Db) (rm : Bool) (g : List DesignDefinition)
        (gs : List (List DesignDefinition)),
      syncGroups db rm (g :: gs) =
        match processGroup (fetchDoc db (groupDesign g)) g rm with
        | Except.error e => Except.error e
        | Except.ok doc =>
          match syncGroups db rm gs with
          | Except.error e => Except.error e
          | Except.ok rest =>
            Except.ok ((if docBEq doc (fetchDoc db (groupDesign g)) then [] else [doc]) ++ rest)) := by
  refine ⟨groupRuns_flatten l, groupRuns_forall l, groupRuns_chain l, ?_, fun _ _ _ _ => rfl⟩
  intro xs zs a c b hab hca
  constructor
  · have hsplit : xs ++ a :: c :: b :: zs = (xs ++ [a]) ++ c :: b :: zs := by simp
    rw [hsplit]
    apply groupRuns_append_break
    intro x hx
    rw [getLast?_append_singleton] at hx
    have hxa : x = a := (Option.some.inj hx).symm
    subst hxa
    exact fun e => hca e.symm
  · obtain ⟨g, gs, hg⟩ := groupRuns_cons_head b zs
    have hcb : c.design ≠ b.design := by
      rw [← hab]
      exact hca
    rw [groupRuns_cons_eq c (b :: zs), hg]
    show (if c.design = b.design then (c :: b :: g) :: gs else [c] :: (b :: g) :: gs) = _
    rw [if_neg hcb, ← hg]

theorem claim_C9_witness :
    groupRuns ([] ++ cexD1 :: cexE :: cexD2 :: []) =
      groupRuns ([] ++ [cexD1]) ++ groupRuns (cexE :: cexD2 :: []) :=
  ((claim_C9 []).2.2.2.1 [] [] cexD1 cexE cexD2 rfl (by decide)).1

/-- Claim C10: construction only rejects both bodies being absent: a
definition with an empty-string map body and no filter body is constructed
successfully, the empty string is stored as-is without normalization, and
`sync_many` then writes an empty function bundle (no `map` key) under that
name in the `views` section. -/
theorem claim_C10 :
    DesignDefinition.init "d" "v" (some (FunArg.str "")) none "javascript" none none =
      Except.ok c10Def ∧
    c10Def.map_fun = some "" ∧
    syncMany [] [c10Def] false =
      Except.ok ([⟨"_design/d", some "javascript", some [("v", ⟨none, none, none⟩)], none⟩],
        [("_design/d",
          ⟨"_design/d", some "javascript", some [("v", ⟨none, none, none⟩)], none⟩)]) :=
  ⟨rfl, rfl, rfl⟩
